import Mathlib

/-!
# Verification of the nouns entity-definition compiler and runtime

This file gives a shallow embedding, in Lean 4, of the core logic of the
repository: the field-descriptor parser and cascade grammar of
`src/archive/products.ts`, its versioned migration / event runtime
(`DigitalObjectDefinition`), the `Noun` field classifier of the core module
and its serialization round trip, and the query-context identity
resolution (`inferContext`).  Strings are modelled as `List Char`; the
JavaScript regular expressions of the source are implemented as total
recursive functions whose backtracking behaviour is reproduced explicitly
and documented at each definition.  Theorems at the end of the file settle
the specification claims against these definitions.
-/

namespace Nouns

/-! ## Character classes and string helpers

JavaScript character classes, restricted to ASCII (the source data is
ASCII): the regex class \w is [A-Za-z0-9_] and \s is ASCII whitespace.
-/

/-- The regex class \w: letters, digits and underscore (ASCII). -/
def isWordChar (c : Char) : Bool :=
  c.isAlpha || c.isDigit || c = '_'

/-- The regex class \s, restricted to ASCII whitespace characters. -/
def isSpc (c : Char) : Bool :=
  c = ' ' || c = '\t' || c = '\n' || c = '\r' || c = '\x0b' || c = '\x0c'

/-- A JavaScript line terminator: the dot of a regex without the s flag
matches every character except these.  Like isSpc, this is restricted to
the ASCII terminators \n and \r (U+2028 and U+2029 do not occur in the
source data).  Note that line terminators are \s whitespace, so \s can
cross them while the dot cannot. -/
def isLineTerm (c : Char) : Bool := c = '\n' || c = '\r'

/-- JavaScript String.prototype.trim, on ASCII whitespace. -/
def trimL (cs : List Char) : List Char :=
  ((cs.dropWhile isSpc).reverse.dropWhile isSpc).reverse

/-- Build a `String` back from a character list. -/
def mkStr (cs : List Char) : String := String.mk cs

/-- JavaScript String.prototype.includes with a one-character needle. -/
def containsC (s : String) (c : Char) : Bool := s.toList.contains c

/-- JavaScript String.prototype.startsWith with the literal '$'. -/
def startsDollar (s : String) : Bool :=
  match s.toList with
  | '$' :: _ => true
  | _ => false

/-- JavaScript String.prototype.split with a single-character separator:
"".split(sep) is [""], and separators at the ends produce empty parts. -/
def splitOnC (sep : Char) : List Char → List (List Char)
  | [] => [[]]
  | c :: rest =>
    if c = sep then [] :: splitOnC sep rest
    else
      match splitOnC sep rest with
      | [] => [[c]]
      | p :: ps => (c :: p) :: ps

/-! ## Cascade operators (products.ts, CASCADE_OPERATORS / CASCADE_REGEX)

The source lists the six operators longest first, and the regex
alternation (<~>|<->|<~|~>|<-|->) tries them in that order at every
candidate position.
-/

/-- The six cascade operators, in the alternation order of CASCADE_REGEX. -/
def cascadeOps : List (List Char) :=
  [['<', '~', '>'], ['<', '-', '>'], ['<', '~'], ['~', '>'], ['<', '-'], ['-', '>']]

/-- Match a literal pattern at the head of the input, returning the rest. -/
def stripPat : List Char → List Char → Option (List Char)
  | [], cs => some cs
  | _ :: _, [] => none
  | p :: ps, c :: cs => if p = c then stripPat ps cs else none

/-- The tail \s*(.+)$ of CASCADE_REGEX after a matched operator, on the
remainder rem.  With the greedy \s* consumed, (.+)$ succeeds exactly
when the rest is nonempty and free of line terminators (the dot cannot
match a terminator, and without the m flag $ matches only at the very
end of the input, so any terminator between the current position and the
end is fatal; backtracking \s* only moves the position earlier and
cannot remove it).  When only whitespace follows the operator, the
engine gives the final whitespace character back to (.+)$, which
succeeds exactly when that character is not a line terminator (a longer
give-back leaves the terminating character inside (.+) and fails the
same way). -/
def opTail (rem : List Char) : Bool :=
  let r := rem.dropWhile isSpc
  if r.isEmpty then
    match rem.getLast? with
    | some c => !isLineTerm c
    | none => false
  else r.all fun c => !isLineTerm c

/-- Try the six operators, alternation order, at the current position.
An operator matches here exactly when the tail \s*(.+)$ succeeds on the
remainder; on tail failure the alternation falls through to the shorter
operators, exactly as the JavaScript engine does.  The remainder, not
the (.+) capture, is returned: the source trims the capture, and the
capture and the remainder trim equal (they differ only by whitespace
consumed by \s*, and in the give-back case the capture is a single
whitespace character, which also trims away). -/
def opHere (cs : List Char) : Option (List Char × List Char) :=
  cascadeOps.findSome? fun op =>
    match stripPat op cs with
    | some rem => if opTail rem then some (op, rem) else none
    | none => none

/-- Scan continuation past the first line terminator of the input.  The
lazy (.*?) of CASCADE_REGEX consumes dot-matched characters only, so it
can never cross a line terminator; an operator position beyond the first
terminator is reachable only when every character from the terminator up
to the position is whitespace, consumed by the \s* that follows the lazy
group (terminators are \s).  The scan therefore continues only across
whitespace, additionally tries the first non-whitespace position, and
stops there. -/
def findOpTail : List Char → Option (List Char × List Char × List Char)
  | [] => none
  | c :: rest =>
    match opHere (c :: rest) with
    | some (op, rem) => some ([], op, rem)
    | none =>
      if isSpc c then (findOpTail rest).map fun pr => (c :: pr.1, pr.2.1, pr.2.2)
      else none

/-- Leftmost match of CASCADE_REGEX = ^(.*?)\s*(<~>|<->|<~|~>|<-|->)\s*(.+)$.
The engine tries end positions of the lazy group in increasing order and,
within each, \s* runs from longest to shortest; no operator starts with
a whitespace character, so within one group length only the first
non-whitespace position can match, and the first overall success is at
the leftmost reachable position where an operator and its tail match.
Up to the first line terminator every position is reachable (the lazy
group can consume every dot-matched character before it); past it the
scan continues as findOpTail.  Returns the raw text before the operator,
the operator and the raw remainder; the group-1 capture trims equal to
that raw prefix, from which it differs only by trailing whitespace
consumed by \s*, and the source trims it. -/
def findOp : List Char → Option (List Char × List Char × List Char)
  | [] => none
  | c :: rest =>
    match opHere (c :: rest) with
    | some (op, rem) => some ([], op, rem)
    | none =>
      if isLineTerm c then (findOpTail rest).map fun pr => (c :: pr.1, pr.2.1, pr.2.2)
      else (findOp rest).map fun pr => (c :: pr.1, pr.2.1, pr.2.2)

/-- Whether CASCADE_REGEX.test(value) succeeds. -/
def cascadeTest (cs : List Char) : Bool := (findOp cs).isSome

/-! ## Route parameter (ROUTE_PARAM_REGEX = ^:(\w+)\s+(.+)$) -/

/-- Split a leading route parameter ":param rest" by
ROUTE_PARAM_REGEX = ^:(\w+)\s+(.+)$ .  The greedy \w+ cannot usefully
backtrack (a shorter run leaves a word character where \s+ is required).
(.+)$ succeeds on the text after the whitespace run exactly when that
text is nonempty and free of line terminators (the dot cannot match a
terminator and $ matches only at the end of the input; shortening \s+
only moves the position earlier and cannot remove a terminator ahead).
When nothing follows the whitespace run, \s+ gives its final character
back to (.+)$ — possible only when at least two whitespace characters
remain to satisfy \s+ — and the match succeeds exactly when that final
character is not a line terminator (a longer give-back leaves the
terminating character inside (.+) and fails too).  The second returned
component is the (.+) capture, exactly as parseCascade uses it. -/
def routeSplit (cs : List Char) : Option (List Char × List Char) :=
  match cs with
  | ':' :: rest =>
    let pw := rest.takeWhile isWordChar
    let afterW := rest.drop pw.length
    let ws := afterW.takeWhile isSpc
    let afterS := afterW.drop ws.length
    if pw.isEmpty || ws.isEmpty then none
    else if !afterS.isEmpty then
      if afterS.all fun c => !isLineTerm c then some (pw, afterS) else none
    else if 2 ≤ ws.length then
      match ws.getLast? with
      | some c =>
        if isLineTerm c then none else some (pw, afterW.drop (ws.length - 1))
      | none => none
    else none
  | _ => none

/-- The value that parseCascade actually matches the cascade regex
against: the raw value with a leading route parameter stripped. -/
def stripRouteVal (cs : List Char) : List Char :=
  match routeSplit cs with
  | some pr => pr.2
  | none => cs

/-! ## Filters (FILTER_REGEX and FILTER_CONDITION_REGEX, products.ts) -/

/-- A coerced filter value: the source coerces 'true'/'false' to booleans
and numeric strings via Number(...); decimal integers are modelled (no
claim depends on fractional parsing). -/
inductive FilterVal where
  | boolV (b : Bool)
  | numV (n : Int)
  | strV (s : String)
deriving DecidableEq, Repr

/-- One filter condition field<op>value. -/
structure FilterCond where
  field : String
  op : String
  value : FilterVal
deriving DecidableEq, Repr

/-- Leftmost match of FILTER_REGEX = \[([^\]]+)\]: the first '[' followed
by at least one non-']' character and a ']'.  Returns the captured inside
text and the input with that first match removed (String.replace with a
regex and '' removes only the first match). -/
def findFilterBlock : List Char → Option (List Char × List Char)
  | [] => none
  | '[' :: rest =>
    let run := rest.takeWhile (fun c => c ≠ ']')
    if !run.isEmpty && rest.drop run.length ≠ [] then
      some (run, rest.drop (run.length + 1))
    else
      (findFilterBlock rest).map fun pr => (pr.1, '[' :: pr.2)
  | c :: rest => (findFilterBlock rest).map fun pr => (pr.1, c :: pr.2)

/-- JavaScript Number(s) for the strings that occur in filters: the empty
string is 0, otherwise an optional sign followed by decimal digits. -/
def jsNumber (cs : List Char) : Option Int :=
  if cs.isEmpty then some 0
  else
    match cs with
    | '-' :: ds => if !ds.isEmpty && ds.all Char.isDigit then
        some (-(Int.ofNat (mkStr ds).toNat!)) else none
    | ds => if ds.all Char.isDigit then some (Int.ofNat (mkStr ds).toNat!) else none

/-- Coerce a raw (trimmed) filter value as the source does: 'true' and
'false' become booleans, numeric strings numbers, all else stays text. -/
def coerceVal (cs : List Char) : FilterVal :=
  if cs = ['t', 'r', 'u', 'e'] then .boolV true
  else if cs = ['f', 'a', 'l', 's', 'e'] then .boolV false
  else
    match jsNumber cs with
    | some n => .numV n
    | none => .strV (mkStr cs)

/-- The comparator alternation of FILTER_CONDITION_REGEX, in order. -/
def condOps : List (List Char) :=
  [['='], ['!', '='], ['>', '='], ['<', '='], ['>'], ['<']]

/-- The tail \s*(.+) of FILTER_CONDITION_REGEX after a matched
comparator, on the remainder rem, returning the (.+) capture.  This
pattern is not end-anchored: after the greedy \s*, the greedy (.+)
captures the longest run of non-line-terminator characters (the dot
stops at a terminator and nothing forces the match to reach the end);
that run is nonempty whenever anything follows the whitespace, because
the first character after a maximal \s run is not whitespace, hence not
a terminator.  When only whitespace remains, \s* backtracks one
character at a time from the end until (.+) can match one character,
capturing the rightmost non-terminator character of the run, if any. -/
def condTail (rem : List Char) : Option (List Char) :=
  let ws2 := rem.takeWhile isSpc
  let v := (rem.drop ws2.length).takeWhile fun c => !isLineTerm c
  if !v.isEmpty then some v
  else (ws2.filter fun c => !isLineTerm c).getLast?.map fun c => [c]

/-- Try to match (\w+)\s*(=|!=|>=|<=|>|<)\s*(.+) anchored at the current
position.  The greedy \w+ cannot backtrack usefully (every comparator
starts with a non-word character).  A comparator matches exactly when
the tail succeeds on its remainder; on tail failure the alternation
falls through to the later comparators (so e.g. >= whose tail fails
falls back to >, which re-reads the = as the start of the value),
exactly as the JavaScript engine does. -/
def condHere (cs : List Char) : Option (List Char × List Char × List Char) :=
  let run := cs.takeWhile isWordChar
  if run.isEmpty then none
  else
    let after := cs.drop run.length
    let ws := after.takeWhile isSpc
    let afterWs := after.drop ws.length
    match condOps.findSome? (fun op =>
        (stripPat op afterWs).bind fun rem =>
          (condTail rem).map fun v => (op, v)) with
    | some (op, v) => some (run, op, v)
    | none => none

/-- Leftmost (unanchored) match of FILTER_CONDITION_REGEX. -/
def findCond : List Char → Option (List Char × List Char × List Char)
  | [] => none
  | c :: rest =>
    match condHere (c :: rest) with
    | some r => some r
    | none => findCond rest

/-- parseFilters (products.ts): split on commas, trim, match each part
against the condition regex, coerce the value; parts that do not match
are silently dropped. -/
def parseFilters (cs : List Char) : List FilterCond :=
  (splitOnC ',' cs).filterMap fun part =>
    match findCond (trimL part) with
    | some (f, op, rawV) =>
      some { field := mkStr f, op := mkStr op, value := coerceVal (trimL rawV) }
    | none => none

/-! ## Target predicate (TARGET_PREDICATE_REGEX = ^(\w+)\.(\w+)$) -/

/-- Split "Type.predicate": a nonempty word run, a dot, and a nonempty
word run reaching the end (a second dot makes the anchored match fail). -/
def predSplit (cs : List Char) : Option (List Char × List Char) :=
  let a := cs.takeWhile isWordChar
  if a.isEmpty then none
  else
    match cs.drop a.length with
    | '.' :: b => if !b.isEmpty && b.all isWordChar then some (a, b) else none
    | _ => none

/-! ## parseCascade (products.ts lines 645-710) -/

/-- CascadeDefinition as built by parseCascade. -/
structure CascadeDef where
  operator : String
  targetType : String
  predicate : Option String
  description : String
  isArray : Bool
  isFuzzy : Bool
  isBidirectional : Bool
  routeParam : Option String
  filters : Option (List FilterCond)
  generationPrompt : Option String
  isGenerative : Bool
deriving DecidableEq, Repr

/-- The body of parseCascade after a successful regex match, as a
function of the match groups (the raw text before the operator, the
operator, the raw text after it) and the already-extracted route
parameter: the trimmed text before the operator is the description, the
target is cleaned of a bracketed filter block and split on
Type.predicate, and the cascade is generative exactly when the
description is nonempty. -/
def cascadeOfMatch (routeParam : Option String) (rawDescription op rest : List Char) :
    String × CascadeDef :=
  let description := trimL rawDescription
  -- group 3 of the regex is the remainder with its leading whitespace
  -- consumed by \s* ; the source immediately trims it again, so the
  -- combined effect is trimL rest
  let targetClean0 := trimL rest
  let fc :=
    match findFilterBlock targetClean0 with
    | some pr => (some (parseFilters pr.1), trimL pr.2)
    | none => (none, targetClean0)
  let tp :=
    match predSplit fc.2 with
    | some pr => (pr.1, some pr.2)
    | none => (fc.2, none)
  let finalDescription :=
    if description.isEmpty then
      tp.1 ++ (match tp.2 with | some p => '.' :: p | none => [])
    else description
  let hasPrompt := !description.isEmpty
  (mkStr finalDescription,
   { operator := mkStr op
     targetType := mkStr tp.1
     predicate := tp.2.map mkStr
     description := mkStr finalDescription
     isArray := false
     isFuzzy := op.contains '~'
     isBidirectional := op.contains '<' && op.contains '>'
       && op ≠ ['<', '-'] && op ≠ ['<', '~']
     routeParam := routeParam
     filters := fc.1
     generationPrompt := if hasPrompt then some (mkStr description) else none
     isGenerative := hasPrompt })

/-- parseCascade (products.ts 645-710): extract an optional route
parameter, match the cascade regex against the stripped value; with no
operator match the original raw value is returned as description and no
cascade. -/
def parseCascade (value : List Char) : String × Option CascadeDef :=
  let routeParam : Option String :=
    (routeSplit value).map fun pr => mkStr pr.1
  match findOp (stripRouteVal value) with
  | none => (mkStr value, none)
  | some (rawDescription, op, rest) =>
    let r := cascadeOfMatch routeParam rawDescription op rest
    (r.1, some r.2)

/-! ## Field types (products.ts lines 712-738) -/

/-- The primitive field types of ParsedField. -/
inductive FType where
  | stringT | numberT | dateT | booleanT | enumT | objectT | arrayT
deriving DecidableEq, Repr

/-- Case-insensitive comparison of a character run against a keyword. -/
def kwEq (cs kw : List Char) : Bool :=
  cs.map Char.toLower = kw

/-- Leftmost match of TYPE_SUFFIX_REGEX = \s*\((number|date|boolean)\)\s*$
(case-insensitive), as used both by .test and by .replace(…, ''):
returns the input with the matched suffix removed together with the
keyword's type.  The leftmost match of this end-anchored pattern is the
maximal whitespace run before '(' followed by the parenthesised keyword
and trailing whitespace. -/
def typeSuffixCore : List Char → Option (List Char × FType)
  | ')' :: r2 =>
    let tryKw : List Char → FType → Option (List Char × FType) := fun kw t =>
      if kwEq (r2.take kw.length).reverse kw then
        match r2.drop kw.length with
        | '(' :: r3 => some (((r3.dropWhile isSpc).reverse), t)
        | _ => none
      else none
    (tryKw ['n', 'u', 'm', 'b', 'e', 'r'] .numberT).orElse fun _ =>
    (tryKw ['d', 'a', 't', 'e'] .dateT).orElse fun _ =>
    tryKw ['b', 'o', 'o', 'l', 'e', 'a', 'n'] .booleanT
  | _ => none

/-- See typeSuffixCore: the suffix match examines the input from its end,
skipping trailing whitespace first. -/
def typeSuffixSplit (cs : List Char) : Option (List Char × FType) :=
  typeSuffixCore (cs.reverse.dropWhile isSpc)

/-- ENUM_REGEX = ^[\w\s]+(\s*\|\s*[\w\s]+)+$ .  Splitting on '|' this is
exactly: at least two parts, every part nonempty and made of word or
whitespace characters only (the \s* separators are absorbed by [\w\s]). -/
def enumMatch (cs : List Char) : Bool :=
  let parts := splitOnC '|' cs
  2 ≤ parts.length && parts.all fun p => !p.isEmpty && p.all fun c => isWordChar c || isSpc c

/-- parseFieldType (products.ts lines 712-719). -/
def parseFieldType (cs : List Char) : FType :=
  match typeSuffixSplit cs with
  | some (_, t) => t
  | none => if enumMatch cs then .enumT else .stringT

/-- parseEnumValues (products.ts lines 721-724): when the enum regex
matches, split on '|' and trim each alternative. -/
def parseEnumValues (cs : List Char) : Option (List String) :=
  if enumMatch cs then some ((splitOnC '|' cs).map fun p => mkStr (trimL p))
  else none

/-- ParsedField, restricted to what the string branch of parseField
produces (nested object and array descriptors are not needed by any
claim about string-valued fields). -/
structure ParsedField where
  name : String
  description : String
  ftype : FType
  enumValues : Option (List String)
  cascade : Option CascadeDef
deriving DecidableEq, Repr

/-- The string branch of parseField (products.ts lines 727-738): run
parseCascade, compute the type and enum values from the returned
description, and strip the type suffix from the recorded description. -/
def parseFieldStr (name : String) (value : List Char) : ParsedField :=
  let (description, cascade) := parseCascade value
  let dl := description.toList
  { name := name
    description :=
      mkStr (trimL (match typeSuffixSplit dl with
        | some (pre, _) => pre
        | none => dl))
    ftype := parseFieldType dl
    enumValues := parseEnumValues dl
    cascade := cascade }

/-! ## parseDefinition routing for string values (products.ts 873-916)

For a string value under a non-reserved key, parseDefinition either
registers a generative function (the string has a {variable} and no
cascade operator) or parses it as a field; in the latter case the
field's cascade, when present, is also registered in the cascade map.
-/

/-- Extract the {variable} names of VARIABLE_REGEX = \{(\w+)\}g, scanning
left to right with non-overlapping matches: at a '{', a maximal nonempty
word run directly followed by '}' is a match (a shorter run would end at
a word character, never at '}', so the greedy run is exact).  The /g
flag resumes the scan after the matched "}", but the span consumed by a
match contains no further '{' (word characters and '}' only), so
resuming right after the '{' — as this structural recursion does —
finds exactly the same matches. -/
def extractVariables : List Char → List String
  | [] => []
  | '{' :: rest =>
    let run := rest.takeWhile isWordChar
    if !run.isEmpty && (rest.drop run.length).head? = some '}' then
      mkStr run :: extractVariables rest
    else
      extractVariables rest
  | _ :: rest => extractVariables rest

/-- isGenerativeString (products.ts): VARIABLE_REGEX.test, i.e. at least
one {variable} occurs. -/
def isGenerativeString (cs : List Char) : Bool :=
  !(extractVariables cs).isEmpty

/-- How parseDefinition routes a string value: to the generative-function
map or to the field map. -/
inductive StrRoute where
  | genFunction
  | field
deriving DecidableEq, Repr

/-- The routing test of products.ts line 875: a string with {variables}
and no cascade operator becomes a generative function; every other
string value is parsed as a field. -/
def stringValueRoute (cs : List Char) : StrRoute :=
  if isGenerativeString cs && !cascadeTest cs then .genFunction else .field

/-! ## Field-source detection rules (archive/field-types.ts) -/

namespace FieldTypeRules

/-- isSync: a string value starting with the literal "$resource.". -/
def isSync (s : String) : Bool :=
  (stripPat (String.toList "$resource.") s.toList).isSome

/-- isInput: a string with no placeholder brace, not starting with '$'. -/
def isInput (s : String) : Bool := !(containsC s '{') && !(startsDollar s)

/-- isGenerate: a string containing both an opening and a closing brace. -/
def isGenerate (s : String) : Bool := containsC s '{' && containsC s '}'

end FieldTypeRules

/-! ## The versioned runtime (DigitalObjectDefinition, products.ts 925-1201)

The class state is modelled explicitly: a bound storage (with the
reserved '$version' key and the instance entries), the handler context
(created only inside bind), and the fallback in-memory instance map.
Migration handlers and event handlers are opaque to every claim except
for whether a migration throws, so a migration is represented by its
target version and a predicate selecting the throwing ones, and an event
handler by its registered name; each operation returns, besides its
result, the list of handler invocations it performed before returning
(the source calls the handlers synchronously in the middle of the
method, so the invocation list is part of the operation itself). -/

/-- An association-list update with JavaScript map semantics: replace the
first binding of the key, or append a new one. -/
def aput {β : Type} (l : List (String × β)) (k : String) (v : β) : List (String × β) :=
  match l with
  | [] => [(k, v)]
  | (k', v') :: rest => if k' = k then (k, v) :: rest else (k', v') :: aput rest k v

/-- Association-list lookup (first binding wins). -/
def afind {β : Type} (k : String) : List (String × β) → Option β
  | [] => none
  | (k', v) :: rest => if k' = k then some v else afind k rest

/-- Association-list removal of the first binding of a key. -/
def adel {β : Type} (k : String) : List (String × β) → List (String × β)
  | [] => []
  | (k', v) :: rest => if k' = k then rest else (k', v) :: adel k rest

/-- The bound DO storage: the '$version' reserved key (absent on fresh
storage), whether the '$' definition-metadata key has been written, and
the instance entries (payload together with the tagged $version). -/
structure SimStorage where
  version : Option Nat
  defSaved : Bool
  items : List (String × (String × Nat))
deriving DecidableEq, Repr

/-- The statically parsed part of a definition that the runtime claims
depend on: its type name, its version, the registered migration target
versions (keys of the migrations record, hence without duplicates), and
the registered event-handler names. -/
structure SimDef where
  typeName : String
  defVersion : Nat
  migVersions : List Nat
  eventNames : List String
deriving DecidableEq, Repr

/-- The mutable state of a DigitalObjectDefinition: `storage` is
this._storage, `hasContext` records whether this._context was created
(which happens only in bind), and `memory` is this._memoryInstances. -/
structure SimState where
  storage : Option SimStorage
  hasContext : Bool
  memory : List (String × (String × Nat))
deriving DecidableEq, Repr

/-- The state of a freshly constructed definition: the constructor is
called without storage, and it never creates the handler context. -/
def freshState : SimState := { storage := none, hasContext := false, memory := [] }

/-- The migration versions that _checkMigrations selects when behind:
Object.keys filtered to (storedVersion, $version], sorted ascending. -/
def migRunList (stored defV : Nat) (migs : List Nat) : List Nat :=
  List.insertionSort (· ≤ ·) (migs.filter fun v => stored < v && v ≤ defV)

/-- Run a list of migrations in order; `throws` selects the migrations
that raise.  Returns the versions that executed successfully before the
first throwing one, and the throwing version if any (the loop stops
there, modelling exception propagation). -/
def runMigs (throws : Nat → Bool) : List Nat → List Nat × Option Nat
  | [] => ([], none)
  | v :: vs =>
    if throws v then ([], some v)
    else
      let r := runMigs throws vs
      (v :: r.1, r.2)

/-- _checkMigrations (products.ts 1020-1043): read '$version' (missing
means 0 via `|| 0`), and when behind run the selected migrations in
ascending order; only after the whole loop does it write the new
'$version'.  A throw leaves the storage version untouched.  Returns the
updated storage, the executed migrations, and the throwing version. -/
def checkMigrations (d : SimDef) (throws : Nat → Bool) (stg : SimStorage) :
    SimStorage × List Nat × Option Nat :=
  let stored := stg.version.getD 0
  if stored < d.defVersion then
    let r := runMigs throws (migRunList stored d.defVersion d.migVersions)
    match r.2 with
    | some v => (stg, r.1, some v)
    | none => ({ stg with version := some d.defVersion }, r.1, none)
  else (stg, [], none)

/-- bind (products.ts 954-966): assign this._storage and create
this._context FIRST, then run _checkMigrations (whose exception
propagates out of bind, skipping the final puts), then store the
definition under '$' and the version under '$version'.  Returns the
state after the call, the migrations that ran, and the throwing
migration version if the bind failed. -/
def bind (d : SimDef) (throws : Nat → Bool) (st : SimState) (stg : SimStorage) :
    SimState × List Nat × Option Nat :=
  let r := checkMigrations d throws stg
  match r.2.2 with
  | some v =>
    ({ storage := some r.1, hasContext := true, memory := st.memory }, r.2.1, some v)
  | none =>
    ({ storage := some { r.1 with defSaved := true, version := some d.defVersion },
       hasContext := true, memory := st.memory }, r.2.1, none)

/-- The event name on<Type><Event> used by create/put/delete. -/
def eventName (d : SimDef) (ev : String) : String := "on" ++ d.typeName ++ ev

/-- Whether an operation fires a handler: the source guards each
invocation with `this._parsed.events[eventName] && this._context`. -/
def firesEvent (d : SimDef) (st : SimState) (ev : String) : Bool :=
  d.eventNames.contains (eventName d ev) && st.hasContext

/-- create (products.ts 1135-1156): store the data tagged with the
definition version (bound storage if present, else the memory map), then
synchronously invoke on<Type>Created when registered and a context
exists, then return the instance.  The middle component lists the
handler invocations performed before returning. -/
def create (d : SimDef) (st : SimState) (id data : String) :
    SimState × List String × (String × String × Nat) :=
  let inst := (id, data, d.defVersion)
  let st1 :=
    match st.storage with
    | some stg => { st with storage := some { stg with items := aput stg.items id (data, d.defVersion) } }
    | none => { st with memory := aput st.memory id (data, d.defVersion) }
  let fired := if firesEvent d st "Created" then [eventName d "Created"] else []
  (st1, fired, inst)

/-- get (products.ts 1115-1132): read from bound storage, else from the
memory map; a miss is an explicit none, never a throw. -/
def getInst (d : SimDef) (st : SimState) (id : String) : Option (String × Nat) :=
  match st.storage with
  | some stg => afind id stg.items
  | none => afind id st.memory

/-- put (products.ts 1159-1181): full replace re-tagged with the current
version; invokes on<Type>Updated (with previous and current, the
previous possibly a miss) when registered and a context exists. -/
def put (d : SimDef) (st : SimState) (id data : String) :
    SimState × List String × (String × String × Nat) :=
  let st1 :=
    match st.storage with
    | some stg => { st with storage := some { stg with items := aput stg.items id (data, d.defVersion) } }
    | none => { st with memory := aput st.memory id (data, d.defVersion) }
  let fired := if firesEvent d st "Updated" then [eventName d "Updated"] else []
  (st1, fired, (id, data, d.defVersion))

/-- delete (products.ts 1184-1201): a miss returns false and fires
nothing; otherwise remove, invoke on<Type>Deleted when registered and a
context exists, and return true. -/
def deleteInst (d : SimDef) (st : SimState) (id : String) :
    SimState × List String × Bool :=
  match getInst d st id with
  | none => (st, [], false)
  | some _ =>
    let st1 :=
      match st.storage with
      | some stg => { st with storage := some { stg with items := adel id stg.items } }
      | none => { st with memory := adel id st.memory }
    let fired := if firesEvent d st "Deleted" then [eventName d "Deleted"] else []
    (st1, fired, true)

/-! ## Function registry and call (products.ts 825-919 and 1208-1232)

parseDefinition stores every function in this._parsed.functions either
as the raw code function, or as a generative-descriptor object.  All
three generative sources (the legacy { mdx, schema, model } form, a
string with variables, and an object schema with variables) are
normalised to an object with a `prompt` key and NO `mdx` key
(products.ts 860-908).  call() then dispatches on `typeof fn ===
'function'` and on `'mdx' in fn`; the mdx-key presence is modelled by
the `mdx : Option String` component. -/

/-- A JavaScript-ish value, sufficient for the definition records the
source manipulates: strings, numbers, booleans, null/undefined,
functions (carried as their source text) and object/array literals. -/
inductive JSValue where
  | str (s : String)
  | num (n : Int)
  | boolV (b : Bool)
  | nullV
  | undef
  | func (code : String)
  | obj (fields : List (String × JSValue))
  | arr (elems : List JSValue)

/-- A function as stored in this._parsed.functions after parseDefinition. -/
inductive StoredFn where
  /-- a code function, stored as-is (modelled by its executable body) -/
  | code (f : List JSValue → JSValue)
  /-- a generative descriptor object; `mdx` records whether the object
  has an 'mdx' key (parseDefinition never produces one) -/
  | gen (prompt : String) (mdx : Option String) (schema : Option JSValue)
        (modelHint : Option String) (vars : List String)

/-- parseDefinition's normalisation of the legacy { mdx: ..., schema,
model } form (products.ts 861-871): prompt := mdx, variables extracted,
and no 'mdx' key on the produced object. -/
def normalizeLegacy (mdxStr : String) (schema : Option JSValue)
    (modelHint : Option String) : StoredFn :=
  .gen mdxStr none schema modelHint (extractVariables mdxStr.toList)

/-- parseDefinition's handling of a generative string field (products.ts
875-881): prompt := the string, variables extracted, no schema or model. -/
def normalizeGenString (s : String) : StoredFn :=
  .gen s none none none (extractVariables s.toList)

/-- The outcome of a successful call. -/
inductive CallOutcome where
  /-- a code function's return value -/
  | value (v : JSValue)
  /-- the deferred generation descriptor { _generate, mdx, args, schema, model } -/
  | deferred (mdx : String) (args : List JSValue) (schema : Option JSValue)
             (modelHint : Option String)

/-- The two errors call can throw. -/
inductive CallErr where
  | notFound (name : String)
  | unknownType (name : String)
deriving DecidableEq, Repr

/-- call (products.ts 1208-1232): an unregistered name throws NotFound; a
code function executes directly with the given args; an object with an
'mdx' key returns the deferred descriptor; any other registered function
falls through to the "Unknown function type" throw. -/
def call (fns : List (String × StoredFn)) (name : String) (args : List JSValue) :
    Except CallErr CallOutcome :=
  match afind name fns with
  | none => .error (.notFound name)
  | some (.code f) => .ok (.value (f args))
  | some (.gen _ mdx schema modelHint _) =>
    match mdx with
    | some m => .ok (.deferred m args schema modelHint)
    | none => .error (.unknownType name)

/-! ## Query-context identity resolution (inferContext, part_021 31-57) -/

/-- The ambient inputs inferContext reads, in source order.  Each is an
optional string; JavaScript truthiness makes the empty string count as
absent.  An absent `process` object is the same as all environment
variables being absent. -/
structure CtxEnv where
  doContextGlobal : Option String
  requestHost : Option String
  envDOContext : Option String
  envVercelUrl : Option String
  envCfPagesUrl : Option String
  envWorkerHost : Option String
  configContext : Option String
deriving DecidableEq, Repr

/-- JavaScript truthiness of an optional string. -/
def truthy : Option String → Option String
  | some s => if s = "" then none else some s
  | none => none

/-- inferContext: explicit global override, then the request host
(prefixed with https://), then the four environment variables in order
(VERCEL_URL and WORKER_HOST get an https:// prefix), then the static
config, then the fixed fallback. -/
def inferContext (e : CtxEnv) : String :=
  match truthy e.doContextGlobal with
  | some s => s
  | none =>
    match truthy e.requestHost with
    | some h => "https://" ++ h
    | none =>
      match truthy e.envDOContext with
      | some s => s
      | none =>
        match truthy e.envVercelUrl with
        | some u => "https://" ++ u
        | none =>
          match truthy e.envCfPagesUrl with
          | some u => u
          | none =>
            match truthy e.envWorkerHost with
            | some h => "https://" ++ h
            | none =>
              match truthy e.configContext with
              | some s => s
              | none => "http://localhost:3000"

/-! ## The Noun field classifier (core module, part_022 lines 77-173)

Noun(definition) walks the definition entries (keys starting with '$'
are skipped) and files each field into exactly one of eight buckets:
input, generate, aggregate ($sum/$count/$avg/$min/$max), fuzzy, link
($query), sync/ref (a $-proxy path, external sources going to sync),
or compute (a function); everything else is dropped. -/

/-- Property access v?.k on the JS value model: only objects have
properties (first binding wins; the records built by the source have
distinct keys). -/
def getProp (v : JSValue) (k : String) : Option JSValue :=
  match v with
  | .obj fields => afind k fields
  | _ => none

/-- JavaScript truthiness of a value ('' , 0, false, null, undefined are
falsy). -/
def jsTruthy : JSValue → Bool
  | .str s => s ≠ ""
  | .num n => n ≠ 0
  | .boolV b => b
  | .nullV => false
  | .undef => false
  | .func _ => true
  | .obj _ => true
  | .arr _ => true

/-- The EXTERNAL_SOURCES set (part_022 lines 18-21). -/
def EXTERNAL_SOURCES : List String :=
  ["Stripe", "Github", "Google", "Vercel", "NPM", "DNS", "WHOIS",
   "Slack", "Discord", "Linear", "Notion", "Airtable"]

/-- Array.prototype.join('.') element stringification, for the path
elements of a $-proxy value (always strings in the source's data). -/
def jsToStr : JSValue → String
  | .str s => s
  | .num n => toString n
  | .boolV b => if b then "true" else "false"
  | .nullV => ""
  | .undef => ""
  | .func c => c
  | .obj _ => "[object Object]"
  | .arr _ => ""

/-- path.join('.') for a $-proxy path array. -/
def joinDot (ps : List JSValue) : String :=
  mkStr (List.intercalate ['.'] (ps.map fun v => (jsToStr v).toList))

/-- EXTERNAL_SOURCES.has(p[0]): the head element, when a string, looked
up in the set (a non-string head is never in a set of strings). -/
def headIsExternal (ps : List JSValue) : Bool :=
  match ps.head? with
  | some (.str s) => EXTERNAL_SOURCES.contains s
  | _ => false

/-- The classification of one definition entry value. -/
inductive FieldClass where
  | inputF (desc : String)
  | generateF (prompt : String)
  | syncF (source : String)
  | refF (path : String)
  | computeF (fn : String)
  | aggregateF (op : String) (path : String)
  | linkF (target : String) (filter : Option JSValue)
  | fuzzyF (target : String)
  | skip

/-- The classifier branch for values that are neither strings nor hit
any $-keyed pattern: a function is a compute field, anything else is
dropped. -/
def funcCheck : JSValue → FieldClass
  | .func c => .computeF c
  | _ => .skip

/-- The classification sequence of Noun (part_022 92-136), in source
order: string (generate when it contains both braces, else input);
$sum/$count/$avg/$min/$max string properties; $fuzzy; $query (the filter
property rides along); a truthy $ property whose path is an array (empty
paths are dropped, external heads are sync, the rest ref); finally the
function check. -/
def strProp (v : JSValue) (k : String) : Option String :=
  match getProp v k with
  | some (.str s) => some s
  | _ => none

/-- Array.isArray(v?.k) access: the property's elements when it is an
array. -/
def arrProp (v : JSValue) (k : String) : Option (List JSValue) :=
  match getProp v k with
  | some (.arr ps) => some ps
  | _ => none

/-- The $-proxy path branch of the classifier: a truthy $ property whose
path is an array; empty paths are dropped, external heads become sync
and the rest ref; on no (truthy, array-pathed) $ property the function
check runs. -/
def classifyPath (v : JSValue) : FieldClass :=
  match getProp v "$" with
  | some w =>
    if jsTruthy w then
      match arrProp w "path" with
      | some ps =>
        if ps.isEmpty then .skip
        else if headIsExternal ps then .syncF (joinDot ps)
        else .refF (joinDot ps)
      | none => funcCheck v
    else funcCheck v
  | none => funcCheck v

def classify (v : JSValue) : FieldClass :=
  match v with
  | .str s => if containsC s '{' && containsC s '}' then .generateF s else .inputF s
  | _ =>
    match strProp v "$sum" with
    | some p => .aggregateF "sum" p
    | none =>
      match strProp v "$count" with
      | some p => .aggregateF "count" p
      | none =>
        match strProp v "$avg" with
        | some p => .aggregateF "avg" p
        | none =>
          match strProp v "$min" with
          | some p => .aggregateF "min" p
          | none =>
            match strProp v "$max" with
            | some p => .aggregateF "max" p
            | none =>
              match strProp v "$fuzzy" with
              | some t => .fuzzyF t
              | none =>
                match strProp v "$query" with
                | some t => .linkF t (getProp v "filter")
                | none => classifyPath v

/-- An entry's classification including the reserved-key skip. -/
def entryClass (k : String) (v : JSValue) : FieldClass :=
  if startsDollar k then .skip else classify v

/-- The eight buckets of NounMeta (part_022 54-66); only the field
buckets are modelled ($type/$context/$extends carry no field
classification). -/
structure NounMeta where
  input : List (String × String)
  sync : List (String × String)
  ref : List (String × String)
  compute : List (String × String)
  aggregate : List (String × (String × String))
  generate : List (String × String)
  link : List (String × (String × Option JSValue))
  fuzzy : List (String × String)

/-- The empty NounMeta. -/
def emptyMeta : NounMeta :=
  { input := [], sync := [], ref := [], compute := [], aggregate := []
    generate := [], link := [], fuzzy := [] }

/-- File one entry into its bucket. -/
def addEntry (m : NounMeta) (k : String) (v : JSValue) : NounMeta :=
  match entryClass k v with
  | .inputF d => { m with input := m.input ++ [(k, d)] }
  | .generateF p => { m with generate := m.generate ++ [(k, p)] }
  | .syncF s => { m with sync := m.sync ++ [(k, s)] }
  | .refF p => { m with ref := m.ref ++ [(k, p)] }
  | .computeF c => { m with compute := m.compute ++ [(k, c)] }
  | .aggregateF op p => { m with aggregate := m.aggregate ++ [(k, (op, p))] }
  | .linkF t f => { m with link := m.link ++ [(k, (t, f))] }
  | .fuzzyF t => { m with fuzzy := m.fuzzy ++ [(k, t)] }
  | .skip => m

/-- Noun's single pass over the definition entries. -/
def nounMeta (d : List (String × JSValue)) : NounMeta :=
  d.foldl (fun m kv => addEntry m kv.1 kv.2) emptyMeta

/-! ## Serialization (part_021 lines 361-523) -/

/-- The source kinds of SerializedNoun.fields. -/
inductive SourceKind where
  | input | sync | ref | compute | aggregate | generate | link | fuzzy
deriving DecidableEq, Repr

/-- One serialized field: its source kind, its value payload, and the
optional function text (compute fn / link filter). -/
structure SerField where
  source : SourceKind
  value : JSValue
  fn : Option String

/-- The serialized form of one input field: source plus description. -/
def serInputF (d : String) : SerField := ⟨.input, .str d, none⟩

/-- The serialized form of one sync field: source plus external source. -/
def serSyncF (s : String) : SerField := ⟨.sync, .str s, none⟩

/-- The serialized form of one ref field: source plus path. -/
def serRefF (p : String) : SerField := ⟨.ref, .str p, none⟩

/-- The serialized form of one compute field: null value, function text. -/
def serComputeF (c : String) : SerField := ⟨.compute, .nullV, some c⟩

/-- The serialized form of one aggregate field: the { op, path } object. -/
def serAggF (ap : String × String) : SerField :=
  ⟨.aggregate, .obj [("op", .str ap.1), ("path", .str ap.2)], none⟩

/-- The serialized form of one generate field: source plus prompt. -/
def serGenF (p : String) : SerField := ⟨.generate, .str p, none⟩

/-- The serialized form of one link field: the target, and the filter's
text when a filter is present. -/
def serLinkF (tf : String × Option JSValue) : SerField :=
  ⟨.link, .str tf.1, tf.2.map jsToStr⟩

/-- The serialized form of one fuzzy field: source plus target. -/
def serFuzzyF (t : String) : SerField := ⟨.fuzzy, .str t, none⟩

/-- serializeNoun (part_021 361-423): emit the buckets in source order —
input (description), sync (source), ref (path), compute (null value and
the function text), aggregate ({ op, path }), generate (prompt), link
(target and the filter's text when present), fuzzy (target). -/
def serializeFields (m : NounMeta) : List (String × SerField) :=
  (m.input.map fun kv => (kv.1, serInputF kv.2))
  ++ (m.sync.map fun kv => (kv.1, serSyncF kv.2))
  ++ (m.ref.map fun kv => (kv.1, serRefF kv.2))
  ++ (m.compute.map fun kv => (kv.1, serComputeF kv.2))
  ++ (m.aggregate.map fun kv => (kv.1, serAggF kv.2))
  ++ (m.generate.map fun kv => (kv.1, serGenF kv.2))
  ++ (m.link.map fun kv => (kv.1, serLinkF kv.2))
  ++ (m.fuzzy.map fun kv => (kv.1, serFuzzyF kv.2))

/-- parseNoun's switch over serialized fields (part_021 484-520),
producing the definition record that is handed back to Noun: input and
generate pass the value through; sync and ref rebuild a $-proxy path by
splitting the source string on dots; aggregate rebuilds the { $op: path
} object; compute and link keep the function text under $fn only when it
is present (and are otherwise dropped); fuzzy rebuilds { $fuzzy: value }.
A sync/ref/aggregate payload that is not the string/object serializeNoun
emits would make the source throw; such entries cannot come from
serializeNoun and are dropped here. -/
def parseNounFields (fields : List (String × SerField)) : List (String × JSValue) :=
  fields.filterMap fun kf =>
    let k := kf.1
    let f := kf.2
    match f.source with
    | .input => some (k, f.value)
    | .generate => some (k, f.value)
    | .sync =>
      match f.value with
      | .str s => some (k, .obj [("$", .obj [("path",
          .arr ((splitOnC '.' s.toList).map fun p => .str (mkStr p)))])])
      | _ => none
    | .ref =>
      match f.value with
      | .str s => some (k, .obj [("$", .obj [("path",
          .arr ((splitOnC '.' s.toList).map fun p => .str (mkStr p)))])])
      | _ => none
    | .aggregate =>
      match getProp f.value "op", getProp f.value "path" with
      | some (.str o), some pv => some (k, .obj [("$" ++ o, pv)])
      | _, _ => none
    | .compute =>
      match f.fn with
      | some c => some (k, .obj [("$fn", .str c)])
      | none => none
    | .link =>
      match f.fn with
      | some c => some (k, .obj [("$fn", .str c)])
      | none => none
    | .fuzzy => some (k, .obj [("$fuzzy", f.value)])

/-- The source-kind a serialized form assigns to a field name: lookup in
the serialized field list (keys are unique for definitions with unique
keys). -/
def srcOf (fields : List (String × SerField)) (k : String) : Option SourceKind :=
  (afind k fields).map SerField.source

/-- serialize(parse(serialize(D))) at the field level: serialize D's
meta, parse it back to a definition, classify again, serialize again. -/
def roundTrip (d : List (String × JSValue)) : List (String × SerField) :=
  serializeFields (nounMeta (parseNounFields (serializeFields (nounMeta d))))

/-! ### Comprehension views of the classifier buckets

These definitions are proof infrastructure, not part of the embedding:
they re-express each bucket of `nounMeta` as a filterMap over the
definition entries, which the bridging lemma below proves equal to the
single fold of the source. -/

def inputsOf (d : List (String × JSValue)) : List (String × String) :=
  d.filterMap fun kv =>
    match entryClass kv.1 kv.2 with | .inputF s => some (kv.1, s) | _ => none

def syncsOf (d : List (String × JSValue)) : List (String × String) :=
  d.filterMap fun kv =>
    match entryClass kv.1 kv.2 with | .syncF s => some (kv.1, s) | _ => none

def refsOf (d : List (String × JSValue)) : List (String × String) :=
  d.filterMap fun kv =>
    match entryClass kv.1 kv.2 with | .refF s => some (kv.1, s) | _ => none

def computesOf (d : List (String × JSValue)) : List (String × String) :=
  d.filterMap fun kv =>
    match entryClass kv.1 kv.2 with | .computeF s => some (kv.1, s) | _ => none

def aggregatesOf (d : List (String × JSValue)) : List (String × (String × String)) :=
  d.filterMap fun kv =>
    match entryClass kv.1 kv.2 with
    | .aggregateF op p => some (kv.1, (op, p)) | _ => none

def generatesOf (d : List (String × JSValue)) : List (String × String) :=
  d.filterMap fun kv =>
    match entryClass kv.1 kv.2 with | .generateF s => some (kv.1, s) | _ => none

def linksOf (d : List (String × JSValue)) : List (String × (String × Option JSValue)) :=
  d.filterMap fun kv =>
    match entryClass kv.1 kv.2 with | .linkF t f => some (kv.1, (t, f)) | _ => none

def fuzziesOf (d : List (String × JSValue)) : List (String × String) :=
  d.filterMap fun kv =>
    match entryClass kv.1 kv.2 with | .fuzzyF t => some (kv.1, t) | _ => none

/-- The keys of an association list. -/
def keysOf {β : Type} (l : List (String × β)) : List String := l.map Prod.fst

/-- The source kind a lookup of a key in a serialized field list yields,
expressed bucket by bucket (proof infrastructure: proved below equal to
srcOf of serializeFields). -/
def bucketFind (m : NounMeta) (k : String) : Option SourceKind :=
  match afind k m.input with
  | some _ => some .input
  | none =>
    match afind k m.sync with
    | some _ => some .sync
    | none =>
      match afind k m.ref with
      | some _ => some .ref
      | none =>
        match afind k m.compute with
        | some _ => some .compute
        | none =>
          match afind k m.aggregate with
          | some _ => some .aggregate
          | none =>
            match afind k m.generate with
            | some _ => some .generate
            | none =>
              match afind k m.link with
              | some _ => some .link
              | none =>
                match afind k m.fuzzy with
                | some _ => some .fuzzy
                | none => none

/-- The invariants every classifier-produced NounMeta satisfies: bucket
keys never start with '$', input descriptions fail the brace test,
generate prompts pass it, and aggregate ops are one of the five the
classifier emits (proof infrastructure). -/
def goodMeta (m : NounMeta) : Prop :=
  (∀ kd ∈ m.input, startsDollar kd.1 = false ∧
    (containsC kd.2 '{' && containsC kd.2 '}') = false) ∧
  (∀ kp ∈ m.generate, startsDollar kp.1 = false ∧
    (containsC kp.2 '{' && containsC kp.2 '}') = true) ∧
  (∀ ka ∈ m.aggregate, startsDollar ka.1 = false ∧
    (ka.2.1 = "sum" ∨ ka.2.1 = "count" ∨ ka.2.1 = "avg" ∨
     ka.2.1 = "min" ∨ ka.2.1 = "max")) ∧
  (∀ kt ∈ m.fuzzy, startsDollar kt.1 = false) ∧
  (∀ ks ∈ m.sync, startsDollar ks.1 = false) ∧
  (∀ kr ∈ m.ref, startsDollar kr.1 = false)

/-! # Lemmas and claim theorems -/

/-! ## Association-list lemmas -/

theorem afind_append {β : Type} (k : String) (l₁ l₂ : List (String × β)) :
    afind k (l₁ ++ l₂) = (afind k l₁).orElse fun _ => afind k l₂ := by
  induction l₁ with
  | nil => simp [afind]
  | cons kv rest ih =>
    obtain ⟨k', v⟩ := kv
    by_cases h : k' = k <;> simp [afind, h, ih]

theorem afind_map_val {β γ : Type} (k : String) (g : String → β → γ)
    (l : List (String × β)) :
    afind k (l.map fun kv => (kv.1, g kv.1 kv.2)) = (afind k l).map (g k) := by
  induction l with
  | nil => simp [afind]
  | cons kv rest ih =>
    obtain ⟨k', v⟩ := kv
    by_cases h : k' = k
    · subst h; simp [afind, ih]
    · simp [afind, h, ih]

theorem afind_eq_none {β : Type} (k : String) (l : List (String × β)) :
    afind k l = none ↔ k ∉ keysOf l := by
  induction l with
  | nil => simp [afind, keysOf]
  | cons kv rest ih =>
    obtain ⟨k', v⟩ := kv
    by_cases h : k' = k <;> simp [afind, h, keysOf, ih] <;> simp [keysOf] at ih ⊢ <;>
      tauto

theorem afind_mem {β : Type} {k : String} {l : List (String × β)} {v : β}
    (h : afind k l = some v) : (k, v) ∈ l := by
  induction l with
  | nil => simp [afind] at h
  | cons kv rest ih =>
    obtain ⟨k', v'⟩ := kv
    by_cases hk : k' = k
    · subst hk
      simp [afind] at h
      simp [h]
    · simp [afind, hk] at h
      simp [ih h]

/-! ## Parser infrastructure lemmas -/

theorem splitOnC_ne_nil (sep : Char) (l : List Char) : splitOnC sep l ≠ [] := by
  induction l with
  | nil => simp [splitOnC]
  | cons c rest ih =>
    by_cases hc : c = sep
    · simp [splitOnC, hc]
    · simp only [splitOnC, hc, if_false]
      cases h : splitOnC sep rest <;> simp

theorem mem_splitOnC {sep : Char} {cs : List Char} {c : Char} (hc : c ∈ cs) :
    c = sep ∨ ∃ p ∈ splitOnC sep cs, c ∈ p := by
  induction cs with
  | nil => cases hc
  | cons d rest ih =>
    rcases List.mem_cons.mp hc with rfl | hcr
    · by_cases hd : c = sep
      · exact Or.inl hd
      · right
        cases h : splitOnC sep rest with
        | nil => exact absurd h (splitOnC_ne_nil sep rest)
        | cons p ps =>
          exact ⟨c :: p, by simp [splitOnC, hd, h], by simp⟩
    · rcases ih hcr with h | ⟨p, hp, hcp⟩
      · exact Or.inl h
      · by_cases hd : d = sep
        · exact Or.inr ⟨p, by simp [splitOnC, hd, hp], hcp⟩
        · cases h : splitOnC sep rest with
          | nil => exact absurd h (splitOnC_ne_nil sep rest)
          | cons q qs =>
            rw [h] at hp
            rcases List.mem_cons.mp hp with rfl | hq
            · exact Or.inr ⟨d :: p, by simp [splitOnC, hd, h], by simp [hcp]⟩
            · exact Or.inr ⟨p, by simp [splitOnC, hd, h, hq], hcp⟩

/-- A character that the enum regex admits. -/
def enumChar (c : Char) : Bool := isWordChar c || isSpc c || c = '|'

theorem enumMatch_chars {cs : List Char} (h : enumMatch cs = true) :
    ∀ c ∈ cs, enumChar c = true := by
  intro c hc
  rcases @mem_splitOnC '|' cs c hc with rfl | ⟨p, hp, hcp⟩
  · simp [enumChar]
  · unfold enumMatch at h
    rw [Bool.and_eq_true, List.all_eq_true] at h
    have := h.2 p hp
    rw [Bool.and_eq_true, List.all_eq_true] at this
    have := this.2 c hcp
    simp [enumChar]
    rcases Bool.or_eq_true _ _ |>.mp this with h' | h'
    · exact Or.inl (Or.inl h')
    · exact Or.inl (Or.inr h')

/-- A character that can start a cascade operator. -/
def opStartChar (c : Char) : Bool := c = '<' || c = '~' || c = '-'

theorem opHere_none {c : Char} {rest : List Char} (h : opStartChar c = false) :
    opHere (c :: rest) = none := by
  have h1 : ¬((' ' = c) = True) → True := fun _ => trivial
  have hlt : ¬('<' = c) := by
    intro e; rw [← e] at h; simp [opStartChar] at h
  have htl : ¬('~' = c) := by
    intro e; rw [← e] at h; simp [opStartChar] at h
  have hmn : ¬('-' = c) := by
    intro e; rw [← e] at h; simp [opStartChar] at h
  simp [opHere, cascadeOps, List.findSome?_cons, stripPat, hlt, htl, hmn]

theorem findOpTail_none {cs : List Char} (h : ∀ c ∈ cs, opStartChar c = false) :
    findOpTail cs = none := by
  induction cs with
  | nil => rfl
  | cons c rest ih =>
    have h1 : opHere (c :: rest) = none := opHere_none (h c (by simp))
    have h2 : findOpTail rest = none := ih fun d hd => h d (by simp [hd])
    unfold findOpTail
    rw [h1, h2]
    simp

theorem findOp_none {cs : List Char} (h : ∀ c ∈ cs, opStartChar c = false) :
    findOp cs = none := by
  induction cs with
  | nil => rfl
  | cons c rest ih =>
    have h1 : opHere (c :: rest) = none := opHere_none (h c (by simp))
    have h2 : findOp rest = none := ih fun d hd => h d (by simp [hd])
    have h3 : findOpTail rest = none := findOpTail_none fun d hd => h d (by simp [hd])
    unfold findOp
    rw [h1, h2, h3]
    simp

theorem findOp_drop_isSome (l : List Char) (n : Nat)
    (hnl : ∀ c ∈ l, isLineTerm c = false)
    (h : (findOp (l.drop n)).isSome) : (findOp l).isSome := by
  induction l generalizing n with
  | nil => simpa using h
  | cons c rest ih =>
    cases n with
    | zero => simpa using h
    | succ m =>
      have h' : (findOp rest).isSome :=
        ih m (fun d hd => hnl d (by simp [hd])) (by simpa using h)
      have hc : isLineTerm c = false := hnl c (by simp)
      unfold findOp
      cases hop : opHere (c :: rest) with
      | some pr => simp
      | none => simpa [hc] using h'

theorem routeSplit_snd_drop {cs p r : List Char}
    (h : routeSplit cs = some (p, r)) : ∃ n, r = cs.drop n := by
  cases cs with
  | nil => simp [routeSplit] at h
  | cons c rest =>
    unfold routeSplit at h
    split at h
    · next rest' heq =>
      injection heq with hc hrest
      subst hrest
      simp only at h
      split at h
      · simp at h
      · split at h
        · split at h
          · injection h with h'
            injection h' with h1 h2
            refine ⟨(rest.takeWhile isWordChar).length +
              ((rest.drop (rest.takeWhile isWordChar).length).takeWhile isSpc).length + 1,
              ?_⟩
            rw [← h2]
            simp [List.drop_drop]
          · simp at h
        · split at h
          · split at h
            · split at h
              · simp at h
              · injection h with h'
                injection h' with h1 h2
                refine ⟨(rest.takeWhile isWordChar).length +
                  (((rest.drop (rest.takeWhile isWordChar).length).takeWhile isSpc).length
                  - 1) + 1, ?_⟩
                rw [← h2]
                simp [List.drop_drop]
            · simp at h
          · simp at h
    · simp at h

theorem stripRouteVal_drop (cs : List Char) : ∃ n, stripRouteVal cs = cs.drop n := by
  unfold stripRouteVal
  cases hr : routeSplit cs with
  | none => exact ⟨0, by simp⟩
  | some pr =>
    obtain ⟨p, r⟩ := pr
    obtain ⟨n, hn⟩ := routeSplit_snd_drop hr
    exact ⟨n, by simpa using hn⟩

theorem cascadeTest_of_strip {s : List Char}
    (hnl : ∀ c ∈ s, isLineTerm c = false)
    (h : (findOp (stripRouteVal s)).isSome) :
    cascadeTest s = true := by
  obtain ⟨n, hn⟩ := stripRouteVal_drop s
  have := findOp_drop_isSome s n hnl (by rw [← hn]; exact h)
  simpa [cascadeTest] using this

theorem extractVariables_nil {cs : List Char} (h : ∀ c ∈ cs, c ≠ '{') :
    extractVariables cs = [] := by
  induction cs with
  | nil => rfl
  | cons c rest ih =>
    have hc : c ≠ '{' := h c (by simp)
    have hr := ih fun d hd => h d (by simp [hd])
    rw [show extractVariables (c :: rest) = extractVariables rest by
      simp [extractVariables, hc]]
    exact hr

theorem typeSuffixCore_cons_none {c : Char} {r2 : List Char} (h : c ≠ ')') :
    typeSuffixCore (c :: r2) = none := by
  unfold typeSuffixCore
  split
  · rename_i heq
    have h1 : c = ')' := by injection heq
    exact absurd h1 h
  · rfl

theorem routeSplit_none_of_head {cs : List Char} (h : ∀ c ∈ cs, c ≠ ':') :
    routeSplit cs = none := by
  cases cs with
  | nil => rfl
  | cons c rest =>
    unfold routeSplit
    split
    · rename_i heq
      have h1 : c = ':' := by injection heq
      exact absurd h1 (h c (by simp))
    · rfl

theorem enumChar_props {c : Char} (h : enumChar c = true) :
    opStartChar c = false ∧ c ≠ ')' ∧ c ≠ '{' ∧ c ≠ ':' := by
  refine ⟨?_, ?_, ?_, ?_⟩
  · by_cases h1 : c = '<'
    · subst h1; exact absurd h (by decide)
    · by_cases h2 : c = '~'
      · subst h2; exact absurd h (by decide)
      · by_cases h3 : c = '-'
        · subst h3; exact absurd h (by decide)
        · simp [opStartChar, h1, h2, h3]
  · intro e; subst e; exact absurd h (by decide)
  · intro e; subst e; exact absurd h (by decide)
  · intro e; subst e; exact absurd h (by decide)

/-! ## Claim C1 -/

/-- C1 (amended): for every raw single-line string field value (one free
of line terminators, which the regex dots cannot match) in which, after
stripping an optional leading :param route-parameter token, a cascade
operator followed by a target occurs, parseDefinition routes the value
to the field map (a cascade, never a generative function — even when the
string contains placeholder braces), parseField records the cascade, and
the cascade is generative, with the trimmed pre-operator text as its
generation prompt and description, exactly when that trimmed text is
nonempty (otherwise it is a pure link). -/
theorem cascade_classification (nm : String) (s pre op rest : List Char)
    (hnl : ∀ c ∈ s, isLineTerm c = false)
    (h : findOp (stripRouteVal s) = some (pre, op, rest)) :
    stringValueRoute s = .field ∧
    ∃ c, (parseCascade s).2 = some c ∧
      (parseFieldStr nm s).cascade = some c ∧
      c.isGenerative = !(trimL pre).isEmpty ∧
      c.generationPrompt =
        (if (trimL pre).isEmpty then none else some (mkStr (trimL pre))) ∧
      ((trimL pre).isEmpty = false → c.description = mkStr (trimL pre)) := by
  have htest : cascadeTest s = true := cascadeTest_of_strip hnl (by simp [h])
  have hpc : parseCascade s =
      ((cascadeOfMatch ((routeSplit s).map fun pr => mkStr pr.1) pre op rest).1,
       some (cascadeOfMatch ((routeSplit s).map fun pr => mkStr pr.1) pre op rest).2) := by
    simp [parseCascade, h]
  refine ⟨by simp [stringValueRoute, htest], ?_⟩
  have hpf : (parseFieldStr nm s).cascade = (parseCascade s).2 := rfl
  refine ⟨_, by rw [hpc], by rw [hpf, hpc], ?_, ?_, ?_⟩
  · rfl
  · by_cases he : (trimL pre).isEmpty <;> simp [cascadeOfMatch, he]
  · intro he
    simp [cascadeOfMatch, he]

/-- Witness for C1: the generative array-cascade example of the spec,
with a placeholder in the leading description. -/
theorem cascade_classification_witness :
    stringValueRoute (String.toList "Who has {p}? ->ICP") = .field ∧
    ∃ c, (parseCascade (String.toList "Who has {p}? ->ICP")).2 = some c ∧
      (parseFieldStr "icps" (String.toList "Who has {p}? ->ICP")).cascade = some c ∧
      c.isGenerative = !(trimL (String.toList "Who has {p}? ")).isEmpty ∧
      c.generationPrompt =
        (if (trimL (String.toList "Who has {p}? ")).isEmpty then none
         else some (mkStr (trimL (String.toList "Who has {p}? ")))) ∧
      ((trimL (String.toList "Who has {p}? ")).isEmpty = false →
        c.description = mkStr (trimL (String.toList "Who has {p}? "))) :=
  cascade_classification "icps" (String.toList "Who has {p}? ->ICP")
    (String.toList "Who has {p}? ") (String.toList "->") (String.toList "ICP")
    (by decide) rfl

/-- Counterexample to C1 as stated: the raw value ":tenant ->Type"
contains the operator -> followed by a target, and the text preceding
the first operator occurrence trims to the nonempty ":tenant"; yet the
parser strips the route parameter first, so the extracted description is
"Type" (not ":tenant"), the cascade is not generative and has no
generation prompt — against the claim's description equality and its
generative-iff-nonempty-description clause. -/
theorem cascade_claim_counterexample :
    findOp (String.toList ":tenant ->Type") =
      some (String.toList ":tenant ", String.toList "->", String.toList "Type") ∧
    trimL (String.toList ":tenant ") = String.toList ":tenant" ∧
    String.toList ":tenant" ≠ [] ∧
    ((parseCascade (String.toList ":tenant ->Type")).2.map CascadeDef.isGenerative)
      = some false ∧
    ((parseCascade (String.toList ":tenant ->Type")).2.map CascadeDef.generationPrompt)
      = some none ∧
    ((parseCascade (String.toList ":tenant ->Type")).2.map CascadeDef.description)
      = some "Type" := by
  refine ⟨by decide, by decide, by decide, by decide, by decide, by decide⟩

/-! ## Claim C6 -/

/-- C6: a string matching the enum alternation (word/space alternatives
separated by pipes — such strings can contain no cascade operator and no
placeholder) parses to an enum-typed field whose enum values are exactly
the pipe-separated alternatives, trimmed, in order, with no cascade. -/
theorem enum_field (nm : String) (s : List Char) (h : enumMatch s = true) :
    stringValueRoute s = .field ∧
    parseFieldStr nm s =
      { name := nm
        description := mkStr (trimL s)
        ftype := .enumT
        enumValues := some ((splitOnC '|' s).map fun p => mkStr (trimL p))
        cascade := none } := by
  have hchars := enumMatch_chars h
  have hroute : routeSplit s = none :=
    routeSplit_none_of_head fun c hc => (enumChar_props (hchars c hc)).2.2.2
  have hfind : findOp s = none :=
    findOp_none fun c hc => (enumChar_props (hchars c hc)).1
  have hvars : extractVariables s = [] :=
    extractVariables_nil fun c hc => (enumChar_props (hchars c hc)).2.2.1
  have hstrip : stripRouteVal s = s := by simp [stripRouteVal, hroute]
  have hpc : parseCascade s = (mkStr s, none) := by
    simp [parseCascade, hstrip, hfind]
  have hts : typeSuffixSplit s = none := by
    unfold typeSuffixSplit
    cases hr : s.reverse.dropWhile isSpc with
    | nil => rfl
    | cons c r2 =>
      have hcs : c ∈ s := by
        have h1 : c ∈ s.reverse.dropWhile isSpc := by rw [hr]; simp
        have h2 : c ∈ s.reverse := (List.dropWhile_sublist isSpc).subset h1
        exact List.mem_reverse.mp h2
      exact typeSuffixCore_cons_none (enumChar_props (hchars c hcs)).2.1
  constructor
  · simp [stringValueRoute, isGenerativeString, hvars]
  · unfold parseFieldStr
    rw [hpc]
    have hdl : (mkStr s).toList = s := rfl
    simp only [hdl]
    simp [parseFieldType, parseEnumValues, hts, h]

/-- Witness for C6 at the spec's shape "A | B | C". -/
theorem enum_field_witness :
    parseFieldStr "stage" (String.toList "A | B | C") =
      { name := "stage", description := "A | B | C", ftype := .enumT,
        enumValues := some ["A", "B", "C"], cascade := none } := by
  rw [(enum_field "stage" (String.toList "A | B | C") (by decide)).2]
  decide

/-! ## Claim C7 -/

/-- C7: the field value '$resource.stars (number)' parses to a field of
numeric primitive type with the '(number)' suffix stripped from the
recorded description, and the field-source detection rules classify the
value as Sync (and not as plain Input). -/
theorem sync_stars_field :
    parseFieldStr "stars" (String.toList "$resource.stars (number)") =
      { name := "stars", description := "$resource.stars", ftype := .numberT,
        enumValues := none, cascade := none } ∧
    FieldTypeRules.isSync "$resource.stars (number)" = true ∧
    FieldTypeRules.isInput "$resource.stars (number)" = false := by
  refine ⟨by decide, by decide, by decide⟩

/-! ## Claim C2: migrations run on bind -/

theorem runMigs_nofail (l : List Nat) : runMigs (fun _ => false) l = (l, none) := by
  induction l with
  | nil => rfl
  | cons v vs ih => simp [runMigs, ih]

theorem runMigs_fst (throws : Nat → Bool) (l : List Nat) :
    (runMigs throws l).1 = l.takeWhile fun x => !throws x := by
  induction l with
  | nil => rfl
  | cons v vs ih =>
    by_cases hv : throws v <;> simp [runMigs, hv, List.takeWhile_cons, ih]

theorem runMigs_err {throws : Nat → Bool} {l : List Nat} {v : Nat}
    (h : (runMigs throws l).2 = some v) : throws v = true ∧ v ∈ l := by
  induction l with
  | nil => simp [runMigs] at h
  | cons w vs ih =>
    by_cases hw : throws w
    · simp [runMigs, hw] at h
      subst h
      exact ⟨hw, by simp⟩
    · simp [runMigs, hw] at h
      obtain ⟨h1, h2⟩ := ih h
      exact ⟨h1, by simp [h2]⟩

theorem migRunList_sorted (stored defV : Nat) (migs : List Nat) (hnd : migs.Nodup) :
    List.Sorted (· < ·) (migRunList stored defV migs) := by
  have hsorted : List.Sorted (· ≤ ·) (migRunList stored defV migs) :=
    List.sorted_insertionSort (· ≤ ·) _
  have hperm : List.Perm (migRunList stored defV migs)
      (migs.filter fun v => stored < v && v ≤ defV) :=
    List.perm_insertionSort (· ≤ ·) _
  have hnd2 : (migRunList stored defV migs).Nodup :=
    hperm.nodup_iff.mpr (hnd.filter _)
  have := List.Pairwise.and hsorted hnd2
  exact this.imp fun h => lt_of_le_of_ne h.1 h.2

theorem migRunList_count (stored defV : Nat) (migs : List Nat) (hnd : migs.Nodup)
    (v : Nat) :
    (migRunList stored defV migs).count v =
      if v ∈ migs ∧ stored < v ∧ v ≤ defV then 1 else 0 := by
  have hperm : List.Perm (migRunList stored defV migs)
      (migs.filter fun v => stored < v && v ≤ defV) :=
    List.perm_insertionSort (· ≤ ·) _
  rw [hperm.count_eq]
  by_cases hin : v ∈ migs ∧ stored < v ∧ v ≤ defV
  · rw [if_pos hin]
    have hmem : v ∈ migs.filter fun v => stored < v && v ≤ defV := by
      rw [List.mem_filter]
      exact ⟨hin.1, by simp [hin.2.1, hin.2.2]⟩
    exact List.count_eq_one_of_mem (hnd.filter _) hmem
  · rw [if_neg hin]
    rw [List.count_eq_zero]
    intro hmem
    rw [List.mem_filter] at hmem
    exact hin ⟨hmem.1, by simpa using hmem.2⟩

/-- C2: binding a definition at version V to storage recording version S
runs, when S < V, exactly the registered migrations with target version
in (S, V] — each exactly once (count 1, all others count 0) and in
strictly increasing order — and, when S >= V, runs zero migrations. -/
theorem bind_runs_migrations (d : SimDef) (st : SimState) (stg : SimStorage) (S : Nat)
    (hS : stg.version = some S) (hnd : d.migVersions.Nodup) :
    List.Sorted (· < ·) (bind d (fun _ => false) st stg).2.1 ∧
    (∀ v, ((bind d (fun _ => false) st stg).2.1).count v =
      if v ∈ d.migVersions ∧ S < v ∧ v ≤ d.defVersion then 1 else 0) ∧
    (d.defVersion ≤ S → (bind d (fun _ => false) st stg).2.1 = []) := by
  have hrun : (bind d (fun _ => false) st stg).2.1 =
      if S < d.defVersion then migRunList S d.defVersion d.migVersions else [] := by
    unfold bind checkMigrations
    rw [hS]
    by_cases hlt : S < d.defVersion
    · simp [hlt, runMigs_nofail]
    · simp [hlt]
  rw [hrun]
  by_cases hlt : S < d.defVersion
  · rw [if_pos hlt]
    refine ⟨migRunList_sorted S d.defVersion d.migVersions hnd, ?_, ?_⟩
    · exact migRunList_count S d.defVersion d.migVersions hnd
    · intro hge
      omega
  · rw [if_neg hlt]
    refine ⟨by simp, ?_, fun _ => rfl⟩
    intro v
    rw [if_neg]
    · simp
    · rintro ⟨_, h1, h2⟩
      omega

/-- Witness for C2: migrations {2,4,5}, storage at 1, definition at 5
run as [2,4,5]; re-binding already-current storage (version 7 ≥ 5) runs
none. -/
theorem bind_runs_migrations_witness :
    (bind ⟨"T", 5, [2, 4, 5], []⟩ (fun _ => false) freshState
      ⟨some 1, false, []⟩).2.1 = [2, 4, 5] ∧
    (bind ⟨"T", 5, [2, 4, 5], []⟩ (fun _ => false) freshState
      ⟨some 7, false, []⟩).2.1 = [] := by
  constructor
  · decide
  · exact (bind_runs_migrations ⟨"T", 5, [2, 4, 5], []⟩ freshState
      ⟨some 7, false, []⟩ 7 rfl (by decide)).2.2 (by decide)

/-! ## Claim C3: a throwing migration -/

/-- C3 (amended): when a migration throws during bind the failure is
fatal — bind reports the error, the remaining migrations are aborted
(exactly the selected migrations before the throwing one ran, and are
not rolled back), and the version recorded in storage afterwards is the
version recorded before bind (no intermediate checkpoint is persisted,
so it is NOT the version of the last successfully applied migration). -/
theorem bind_migration_failure (d : SimDef) (throws : Nat → Bool) (st : SimState)
    (stg : SimStorage) (S v : Nat) (hS : stg.version = some S)
    (hfail : (bind d throws st stg).2.2 = some v) :
    ((bind d throws st stg).1.storage = some stg) ∧
    ((bind d throws st stg).1.storage.map SimStorage.version = some (some S)) ∧
    ((bind d throws st stg).2.1 =
      (migRunList S d.defVersion d.migVersions).takeWhile fun x => !throws x) ∧
    throws v = true ∧ v ∈ migRunList S d.defVersion d.migVersions := by
  have hcm : checkMigrations d throws stg =
      if S < d.defVersion then
        (match (runMigs throws (migRunList S d.defVersion d.migVersions)).2 with
         | some w => (stg, (runMigs throws (migRunList S d.defVersion d.migVersions)).1, some w)
         | none => ({ stg with version := some d.defVersion },
             (runMigs throws (migRunList S d.defVersion d.migVersions)).1, none))
      else (stg, [], none) := by
    unfold checkMigrations
    rw [hS]
    by_cases hlt : S < d.defVersion <;> simp [hlt]
  by_cases hlt : S < d.defVersion
  · rw [if_pos hlt] at hcm
    cases herr : (runMigs throws (migRunList S d.defVersion d.migVersions)).2 with
    | none =>
      rw [herr] at hcm
      unfold bind at hfail
      rw [hcm] at hfail
      simp at hfail
    | some w =>
      rw [herr] at hcm
      have hb : bind d throws st stg =
          ({ storage := some stg, hasContext := true, memory := st.memory },
           (runMigs throws (migRunList S d.defVersion d.migVersions)).1, some w) := by
        unfold bind
        rw [hcm]
      rw [hb] at hfail ⊢
      simp at hfail
      subst hfail
      obtain ⟨h1, h2⟩ := runMigs_err herr
      exact ⟨rfl, by simp [hS], by simp [runMigs_fst], h1, h2⟩
  · rw [if_neg hlt] at hcm
    unfold bind at hfail
    rw [hcm] at hfail
    simp at hfail

/-- Witness for C3 at migrations {2,4,5}, storage at 1, migration 4
throwing: bind fails at 4, only migration 2 ran, the recorded version is
still 1. -/
theorem bind_migration_failure_witness :
    ((bind ⟨"T", 5, [2, 4, 5], []⟩ (fun x => x == 4) freshState
        ⟨some 1, false, []⟩).1.storage = some ⟨some 1, false, []⟩) ∧
    ((bind ⟨"T", 5, [2, 4, 5], []⟩ (fun x => x == 4) freshState
        ⟨some 1, false, []⟩).1.storage.map SimStorage.version = some (some 1)) ∧
    ((bind ⟨"T", 5, [2, 4, 5], []⟩ (fun x => x == 4) freshState
        ⟨some 1, false, []⟩).2.1 =
      (migRunList 1 5 [2, 4, 5]).takeWhile fun x => !(x == 4)) ∧
    (fun x => x == 4) 4 = true ∧ (4 : Nat) ∈ migRunList 1 5 [2, 4, 5] :=
  bind_migration_failure ⟨"T", 5, [2, 4, 5], []⟩ (fun x => x == 4) freshState
    ⟨some 1, false, []⟩ 1 4 rfl (by decide)

/-- Counterexample to C3 as stated: with migrations {2,4,5}, storage at
version 1 and migration 4 throwing, migration 2 was successfully applied
(and is not rolled back), yet the version recorded in storage afterwards
is 1 — the pre-bind version — and not 2, the version of the last
successfully applied migration. -/
theorem migration_version_counterexample :
    ((bind ⟨"T", 5, [2, 4, 5], []⟩ (fun x => x == 4) freshState
        ⟨some 1, false, []⟩).2.2 = some 4) ∧
    ((bind ⟨"T", 5, [2, 4, 5], []⟩ (fun x => x == 4) freshState
        ⟨some 1, false, []⟩).2.1 = [2]) ∧
    ((bind ⟨"T", 5, [2, 4, 5], []⟩ (fun x => x == 4) freshState
        ⟨some 1, false, []⟩).1.storage.map SimStorage.version = some (some 1)) ∧
    some (some (1 : Nat)) ≠ some (some (2 : Nat)) := by
  refine ⟨by decide, by decide, by decide, by decide⟩

/-! ## Claim C4: call dispatch -/

/-- C4: evaluation of call on a registry produced by parseDefinition.  A
registered code function executes directly with the given arguments and
its result is returned, and an unregistered name throws NotFound — as
the claim states.  But a registered Generate function never returns the
deferred descriptor: parseDefinition normalises the legacy
{ mdx: ... } form (and every other generative form) to an object with a
`prompt` key and no `mdx` key, while call recognises deferral only via
an 'mdx' key, so the call falls through to the "Unknown function type"
throw.  The deferred-descriptor branch of call is unreachable for every
registry parseDefinition can produce. -/
theorem call_dispatch :
    call [("total", .code fun _ => .num 7),
          ("pitch", normalizeLegacy "Generate pitch for {name}" none none),
          ("summary", normalizeGenString "Summarize {problem}")]
        "total" [.str "x"] = .ok (.value (.num 7)) ∧
    normalizeLegacy "Generate pitch for {name}" none none =
      .gen "Generate pitch for {name}" none none none ["name"] ∧
    call [("total", .code fun _ => .num 7),
          ("pitch", normalizeLegacy "Generate pitch for {name}" none none),
          ("summary", normalizeGenString "Summarize {problem}")]
        "pitch" [] = .error (.unknownType "pitch") ∧
    call [("total", .code fun _ => .num 7),
          ("pitch", normalizeLegacy "Generate pitch for {name}" none none),
          ("summary", normalizeGenString "Summarize {problem}")]
        "summary" [] = .error (.unknownType "summary") ∧
    call [("total", .code fun _ => .num 7),
          ("pitch", normalizeLegacy "Generate pitch for {name}" none none),
          ("summary", normalizeGenString "Summarize {problem}")]
        "missing" [] = .error (.notFound "missing") := by
  refine ⟨rfl, rfl, rfl, rfl, rfl⟩

/-! ## Claim C8: create fires the Created handler -/

/-- C8 (amended): on a definition whose on<Type>Created handler is
registered, create invokes that handler exactly once, synchronously
before returning (the invocation list is produced inside create), when
the handler context exists — i.e. after bind; on a definition whose
context was never created the handler is not invoked at all. -/
theorem create_fires_once (d : SimDef) (st : SimState) (id data : String)
    (hreg : d.eventNames.contains (eventName d "Created") = true) :
    (st.hasContext = true →
      (create d st id data).2.1 = [eventName d "Created"] ∧
      ((create d st id data).2.1).count (eventName d "Created") = 1) ∧
    (st.hasContext = false → (create d st id data).2.1 = []) := by
  have hmem : eventName d "Created" ∈ d.eventNames := by simpa using hreg
  unfold create firesEvent
  constructor <;> intro h <;> simp [h, hmem]

/-- Witness for C8 on a bound-context state. -/
theorem create_fires_once_witness :
    (create ⟨"Widget", 1, [], ["onWidgetCreated"]⟩ ⟨none, true, []⟩ "a" "x").2.1 =
      [eventName ⟨"Widget", 1, [], ["onWidgetCreated"]⟩ "Created"] :=
  ((create_fires_once ⟨"Widget", 1, [], ["onWidgetCreated"]⟩ ⟨none, true, []⟩
    "a" "x" (by decide)).1 rfl).1

/-- Counterexample to C8 as stated: a freshly constructed definition has
a registered on<Type>Created handler, yet create invokes it zero times
(the handler context does not exist before bind), not exactly once. -/
theorem create_unbound_counterexample :
    (["onWidgetCreated"] : List String).contains
      (eventName ⟨"Widget", 1, [], ["onWidgetCreated"]⟩ "Created") = true ∧
    ((create ⟨"Widget", 1, [], ["onWidgetCreated"]⟩ freshState "a" "x").2.1).count
      (eventName ⟨"Widget", 1, [], ["onWidgetCreated"]⟩ "Created") = 0 ∧
    (0 : Nat) ≠ 1 := by
  refine ⟨by decide, by decide, by decide⟩

/-! ## Claim C9: context identity resolution -/

/-- C9: inferContext consults, in order: the explicit global override,
the request-derived host, the environment variables, the static config,
then the fixed fallback; the first source that yields a (truthy) value
wins.  Determinism is immediate: inferContext is a function of these
inputs alone. -/
theorem inferContext_resolution (e : CtxEnv) :
    (∀ s, truthy e.doContextGlobal = some s → inferContext e = s) ∧
    (truthy e.doContextGlobal = none →
      ∀ h, truthy e.requestHost = some h → inferContext e = "https://" ++ h) ∧
    (truthy e.doContextGlobal = none → truthy e.requestHost = none →
      ∀ s, truthy e.envDOContext = some s → inferContext e = s) ∧
    (truthy e.doContextGlobal = none → truthy e.requestHost = none →
      truthy e.envDOContext = none →
      ∀ u, truthy e.envVercelUrl = some u → inferContext e = "https://" ++ u) ∧
    (truthy e.doContextGlobal = none → truthy e.requestHost = none →
      truthy e.envDOContext = none → truthy e.envVercelUrl = none →
      ∀ u, truthy e.envCfPagesUrl = some u → inferContext e = u) ∧
    (truthy e.doContextGlobal = none → truthy e.requestHost = none →
      truthy e.envDOContext = none → truthy e.envVercelUrl = none →
      truthy e.envCfPagesUrl = none →
      ∀ h, truthy e.envWorkerHost = some h → inferContext e = "https://" ++ h) ∧
    (truthy e.doContextGlobal = none → truthy e.requestHost = none →
      truthy e.envDOContext = none → truthy e.envVercelUrl = none →
      truthy e.envCfPagesUrl = none → truthy e.envWorkerHost = none →
      ∀ s, truthy e.configContext = some s → inferContext e = s) ∧
    (truthy e.doContextGlobal = none → truthy e.requestHost = none →
      truthy e.envDOContext = none → truthy e.envVercelUrl = none →
      truthy e.envCfPagesUrl = none → truthy e.envWorkerHost = none →
      truthy e.configContext = none → inferContext e = "http://localhost:3000") := by
  unfold inferContext
  refine ⟨?_, ?_, ?_, ?_, ?_, ?_, ?_, ?_⟩ <;>
    intros <;> simp_all

/-- Witness for C9: an empty-string override is falsy and skipped, so a
request host wins and is prefixed with https://. -/
theorem inferContext_resolution_witness :
    inferContext ⟨some "", some "example.com", none, none, none, none, none⟩ =
      "https://example.com" :=
  (inferContext_resolution
    ⟨some "", some "example.com", none, none, none, none, none⟩).2.1
    rfl "example.com" rfl

/-! ## Claim C10: handlers require the bind-created context -/

/-- C10 (amended): on a freshly constructed (never bound) definition,
create, put and delete operate on the in-memory instance map and fire no
handler (the handler context is only created during bind); with a
context present, the same operations invoke the corresponding
registered handler.  The context is created by bind before migrations
run, so any bind call — successful or not — enables the handlers (see
the counterexample for the failed-bind case). -/
theorem handlers_need_context (d : SimDef) (st : SimState) (id data : String) :
    ((create d freshState id data).1.memory = [(id, (data, d.defVersion))] ∧
     (create d freshState id data).1.storage = none ∧
     (create d freshState id data).2.1 = [] ∧
     (put d freshState id data).1.memory = [(id, (data, d.defVersion))] ∧
     (put d freshState id data).2.1 = [] ∧
     (deleteInst d ((create d freshState id data).1) id).2.2 = true ∧
     (deleteInst d ((create d freshState id data).1) id).2.1 = []) ∧
    (st.hasContext = false →
      (create d st id data).2.1 = [] ∧ (put d st id data).2.1 = [] ∧
      (deleteInst d st id).2.1 = []) ∧
    (st.hasContext = true →
      (d.eventNames.contains (eventName d "Created") = true →
        (create d st id data).2.1 = [eventName d "Created"]) ∧
      (d.eventNames.contains (eventName d "Updated") = true →
        (put d st id data).2.1 = [eventName d "Updated"]) ∧
      (d.eventNames.contains (eventName d "Deleted") = true →
        getInst d st id ≠ none →
        (deleteInst d st id).2.1 = [eventName d "Deleted"])) := by
  refine ⟨?_, ?_, ?_⟩
  · refine ⟨by simp [create, freshState, aput], by simp [create, freshState],
      by simp [create, firesEvent, freshState],
      by simp [put, freshState, aput], by simp [put, firesEvent, freshState],
      ?_, ?_⟩
    · simp [create, freshState, aput, deleteInst, getInst, afind]
    · simp [create, freshState, aput, deleteInst, getInst, afind, firesEvent]
  · intro h
    refine ⟨by simp [create, firesEvent, h], by simp [put, firesEvent, h], ?_⟩
    unfold deleteInst
    cases hg : getInst d st id with
    | none => simp
    | some x => simp [firesEvent, h]
  · intro h
    refine ⟨fun hreg => by
        have hmem : eventName d "Created" ∈ d.eventNames := by simpa using hreg
        simp [create, firesEvent, h, hmem],
      fun hreg => by
        have hmem : eventName d "Updated" ∈ d.eventNames := by simpa using hreg
        simp [put, firesEvent, h, hmem],
      fun hreg hex => ?_⟩
    have hmem : eventName d "Deleted" ∈ d.eventNames := by simpa using hreg
    unfold deleteInst
    cases hg : getInst d st id with
    | none => exact absurd hg hex
    | some x => simp [firesEvent, h, hmem]

/-- Witness for C10 on a fresh definition with a registered handler. -/
theorem handlers_need_context_witness :
    (create ⟨"Widget", 1, [], ["onWidgetCreated"]⟩ freshState "a" "x").1.memory =
      [("a", ("x", 1))] ∧
    (create ⟨"Widget", 1, [], ["onWidgetCreated"]⟩ freshState "a" "x").2.1 = [] ∧
    (deleteInst ⟨"Widget", 1, [], ["onWidgetCreated"]⟩
      ((create ⟨"Widget", 1, [], ["onWidgetCreated"]⟩ freshState "a" "x").1)
      "a").2.2 = true := by
  obtain ⟨h1, _, h3, _, _, h6, _⟩ :=
    (handlers_need_context ⟨"Widget", 1, [], ["onWidgetCreated"]⟩ freshState
      "a" "x").1
  exact ⟨h1, h3, h6⟩

/-- Counterexample to C10 as stated: bind creates the handler context
before running migrations, so after a FAILED bind (migration 2 throws)
create still invokes the registered handler — the handlers are not
enabled "only after a successful bind". -/
theorem failed_bind_counterexample :
    ((bind ⟨"Widget", 2, [2], ["onWidgetCreated"]⟩ (fun _ => true) freshState
        ⟨some 1, false, []⟩).2.2 = some 2) ∧
    ((create ⟨"Widget", 2, [2], ["onWidgetCreated"]⟩
        (bind ⟨"Widget", 2, [2], ["onWidgetCreated"]⟩ (fun _ => true) freshState
          ⟨some 1, false, []⟩).1 "a" "x").2.1 = ["onWidgetCreated"]) := by
  refine ⟨by decide, by decide⟩

/-! ## Claim C5: the serialization round trip

The proof proceeds in stages: the serialized field list looked up bucket
by bucket (srcOf_serialize); the classifier fold re-expressed bucket by
bucket (foldl_addEntry_buckets); the invariants of classifier-produced
buckets (goodMeta_nounMeta); the classification of each reconstructed
value; and the assembly showing the re-classified meta keeps the input,
generate, aggregate and fuzzy buckets unchanged while compute and link
are dropped and sync/ref keys stay within the original sync/ref keys. -/

theorem afind_map_pair {β γ : Type} (k : String) (g : β → γ)
    (l : List (String × β)) :
    afind k (l.map fun kv => (kv.1, g kv.2)) = (afind k l).map g := by
  induction l with
  | nil => rfl
  | cons kv rest ih =>
    obtain ⟨k', v⟩ := kv
    by_cases h : k' = k <;> simp [afind, h, ih]

theorem srcOf_serialize (m : NounMeta) (k : String) :
    srcOf (serializeFields m) k = bucketFind m k := by
  unfold srcOf serializeFields bucketFind
  rw [afind_append, afind_append, afind_append, afind_append, afind_append,
      afind_append, afind_append,
      afind_map_pair k serInputF, afind_map_pair k serSyncF,
      afind_map_pair k serRefF, afind_map_pair k serComputeF,
      afind_map_pair k serAggF, afind_map_pair k serGenF,
      afind_map_pair k serLinkF, afind_map_pair k serFuzzyF]
  cases h1 : afind k m.input
  case some => simp [serInputF, Option.orElse]
  case none =>
  cases h2 : afind k m.sync
  case some => simp [serSyncF, Option.orElse]
  case none =>
  cases h3 : afind k m.ref
  case some => simp [serRefF, Option.orElse]
  case none =>
  cases h4 : afind k m.compute
  case some => simp [serComputeF, Option.orElse]
  case none =>
  cases h5 : afind k m.aggregate
  case some => simp [serAggF, Option.orElse]
  case none =>
  cases h6 : afind k m.generate
  case some => simp [serGenF, Option.orElse]
  case none =>
  cases h7 : afind k m.link
  case some => simp [serLinkF, Option.orElse]
  case none =>
  cases h8 : afind k m.fuzzy
  case some => simp [serFuzzyF, Option.orElse]
  case none => simp [Option.orElse]

theorem foldl_addEntry_buckets (d : List (String × JSValue)) :
    ∀ m : NounMeta, d.foldl (fun m kv => addEntry m kv.1 kv.2) m =
      { input := m.input ++ inputsOf d, sync := m.sync ++ syncsOf d,
        ref := m.ref ++ refsOf d, compute := m.compute ++ computesOf d,
        aggregate := m.aggregate ++ aggregatesOf d,
        generate := m.generate ++ generatesOf d,
        link := m.link ++ linksOf d, fuzzy := m.fuzzy ++ fuzziesOf d } := by
  induction d with
  | nil =>
    intro m
    cases m
    simp [inputsOf, syncsOf, refsOf, computesOf, aggregatesOf, generatesOf,
      linksOf, fuzziesOf]
  | cons kv rest ih =>
    intro m
    obtain ⟨k, v⟩ := kv
    rw [List.foldl_cons, ih]
    cases hc : entryClass k v <;>
      simp [addEntry, hc, inputsOf, syncsOf, refsOf, computesOf, aggregatesOf,
        generatesOf, linksOf, fuzziesOf, List.filterMap_cons]

theorem nounMeta_buckets (d : List (String × JSValue)) :
    nounMeta d =
      { input := inputsOf d, sync := syncsOf d, ref := refsOf d,
        compute := computesOf d, aggregate := aggregatesOf d,
        generate := generatesOf d, link := linksOf d, fuzzy := fuzziesOf d } := by
  have := foldl_addEntry_buckets d emptyMeta
  simpa [nounMeta, emptyMeta] using this

theorem classifyPath_shape (v : JSValue) :
    (∃ s, classifyPath v = .syncF s) ∨ (∃ p, classifyPath v = .refF p) ∨
    (∃ c, classifyPath v = .computeF c) ∨ classifyPath v = .skip := by
  unfold classifyPath
  cases hg : getProp v "$" with
  | none =>
    cases v <;> simp [funcCheck]
  | some w =>
    by_cases ht : jsTruthy w
    · simp only [ht, if_true]
      cases hp : arrProp w "path" with
      | none => cases v <;> simp [funcCheck]
      | some ps =>
        by_cases he : ps.isEmpty
        · simp [he]
        · by_cases hx : headIsExternal ps <;> simp [he, hx]
    · simp only [ht, if_false]
      cases v <;> simp [funcCheck]

theorem classify_nonstr (v : JSValue) (hv : ∀ s, v ≠ .str s) :
    (∃ op p, classify v = .aggregateF op p ∧
      (op = "sum" ∨ op = "count" ∨ op = "avg" ∨ op = "min" ∨ op = "max")) ∨
    (∃ t, classify v = .fuzzyF t) ∨ (∃ t f, classify v = .linkF t f) ∨
    (∃ s, classify v = .syncF s) ∨ (∃ p, classify v = .refF p) ∨
    (∃ c, classify v = .computeF c) ∨ classify v = .skip := by
  have hcase : classify v =
      (match strProp v "$sum" with
       | some p => .aggregateF "sum" p
       | none =>
         match strProp v "$count" with
         | some p => .aggregateF "count" p
         | none =>
           match strProp v "$avg" with
           | some p => .aggregateF "avg" p
           | none =>
             match strProp v "$min" with
             | some p => .aggregateF "min" p
             | none =>
               match strProp v "$max" with
               | some p => .aggregateF "max" p
               | none =>
                 match strProp v "$fuzzy" with
                 | some t => .fuzzyF t
                 | none =>
                   match strProp v "$query" with
                   | some t => .linkF t (getProp v "filter")
                   | none => classifyPath v) := by
    cases v with
    | str s => exact absurd rfl (hv s)
    | num n => rfl
    | boolV b => rfl
    | nullV => rfl
    | undef => rfl
    | func c => rfl
    | obj fs => rfl
    | arr es => rfl
  rw [hcase]
  cases strProp v "$sum"
  case some p => exact Or.inl ⟨"sum", p, rfl, by simp⟩
  case none =>
  cases strProp v "$count"
  case some p => exact Or.inl ⟨"count", p, rfl, by simp⟩
  case none =>
  cases strProp v "$avg"
  case some p => exact Or.inl ⟨"avg", p, rfl, by simp⟩
  case none =>
  cases strProp v "$min"
  case some p => exact Or.inl ⟨"min", p, rfl, by simp⟩
  case none =>
  cases strProp v "$max"
  case some p => exact Or.inl ⟨"max", p, rfl, by simp⟩
  case none =>
  cases strProp v "$fuzzy"
  case some t => exact Or.inr (Or.inl ⟨t, rfl⟩)
  case none =>
  cases strProp v "$query"
  case some t => exact Or.inr (Or.inr (Or.inl ⟨t, getProp v "filter", rfl⟩))
  case none =>
  rcases classifyPath_shape v with ⟨s, h⟩ | ⟨p, h⟩ | ⟨c, h⟩ | h <;> rw [h]
  · exact Or.inr (Or.inr (Or.inr (Or.inl ⟨s, rfl⟩)))
  · exact Or.inr (Or.inr (Or.inr (Or.inr (Or.inl ⟨p, rfl⟩))))
  · exact Or.inr (Or.inr (Or.inr (Or.inr (Or.inr (Or.inl ⟨c, rfl⟩)))))
  · exact Or.inr (Or.inr (Or.inr (Or.inr (Or.inr (Or.inr rfl)))))

theorem classify_shape (v : JSValue) :
    (∃ s, v = .str s ∧ classify v = .inputF s ∧
      (containsC s '{' && containsC s '}') = false) ∨
    (∃ s, v = .str s ∧ classify v = .generateF s ∧
      (containsC s '{' && containsC s '}') = true) ∨
    ((∃ op p, classify v = .aggregateF op p ∧
      (op = "sum" ∨ op = "count" ∨ op = "avg" ∨ op = "min" ∨ op = "max")) ∨
     (∃ t, classify v = .fuzzyF t) ∨ (∃ t f, classify v = .linkF t f) ∨
     (∃ s, classify v = .syncF s) ∨ (∃ p, classify v = .refF p) ∨
     (∃ c, classify v = .computeF c) ∨ classify v = .skip) := by
  cases v with
  | str s =>
    by_cases hb : (containsC s '{' && containsC s '}') = true
    · exact Or.inr (Or.inl ⟨s, rfl, by simp [classify, hb], hb⟩)
    · exact Or.inl ⟨s, rfl, by simp [classify, hb], by simpa using hb⟩
  | num n => exact Or.inr (Or.inr (classify_nonstr (.num n) (by simp)))
  | boolV b => exact Or.inr (Or.inr (classify_nonstr (.boolV b) (by simp)))
  | nullV => exact Or.inr (Or.inr (classify_nonstr .nullV (by simp)))
  | undef => exact Or.inr (Or.inr (classify_nonstr .undef (by simp)))
  | func c => exact Or.inr (Or.inr (classify_nonstr (.func c) (by simp)))
  | obj fs => exact Or.inr (Or.inr (classify_nonstr (.obj fs) (by simp)))
  | arr es => exact Or.inr (Or.inr (classify_nonstr (.arr es) (by simp)))

theorem classify_inputF_inv {v : JSValue} {s : String}
    (h : classify v = .inputF s) :
    v = .str s ∧ (containsC s '{' && containsC s '}') = false := by
  rcases classify_shape v with ⟨s', hv, hc, hb⟩ | ⟨s', hv, hc, hb⟩ |
    (⟨op, p, hc, _⟩ | ⟨t, hc⟩ | ⟨t, f, hc⟩ | ⟨t, hc⟩ | ⟨p, hc⟩ | ⟨c, hc⟩ | hc) <;>
    rw [hc] at h
  · injection h with h1
    subst h1
    exact ⟨hv, hb⟩
  all_goals exact FieldClass.noConfusion h

theorem classify_generateF_inv {v : JSValue} {s : String}
    (h : classify v = .generateF s) :
    v = .str s ∧ (containsC s '{' && containsC s '}') = true := by
  rcases classify_shape v with ⟨s', hv, hc, hb⟩ | ⟨s', hv, hc, hb⟩ |
    (⟨op, p, hc, _⟩ | ⟨t, hc⟩ | ⟨t, f, hc⟩ | ⟨t, hc⟩ | ⟨p, hc⟩ | ⟨c, hc⟩ | hc) <;>
    rw [hc] at h
  case inl => exact FieldClass.noConfusion h
  case inr.inl =>
    injection h with h1
    subst h1
    exact ⟨hv, hb⟩
  all_goals exact FieldClass.noConfusion h

theorem classify_aggregateF_inv {v : JSValue} {op p : String}
    (h : classify v = .aggregateF op p) :
    op = "sum" ∨ op = "count" ∨ op = "avg" ∨ op = "min" ∨ op = "max" := by
  rcases classify_shape v with ⟨s', hv, hc, hb⟩ | ⟨s', hv, hc, hb⟩ |
    (⟨op', p', hc, hops⟩ | ⟨t, hc⟩ | ⟨t, f, hc⟩ | ⟨t, hc⟩ | ⟨p', hc⟩ | ⟨c, hc⟩ | hc) <;>
    rw [hc] at h
  case inr.inr.inl =>
    injection h with h1 _
    subst h1
    exact hops
  all_goals exact FieldClass.noConfusion h

theorem mem_inputsOf {d : List (String × JSValue)} {k desc : String}
    (h : (k, desc) ∈ inputsOf d) :
    ∃ v, (k, v) ∈ d ∧ entryClass k v = .inputF desc := by
  unfold inputsOf at h
  rw [List.mem_filterMap] at h
  obtain ⟨kv, hkv, heq⟩ := h
  cases hc : entryClass kv.1 kv.2 <;> rw [hc] at heq <;> simp at heq
  case inputF s =>
    obtain ⟨h1, h2⟩ := heq
    subst h2
    exact ⟨kv.2, by rwa [← h1], by rwa [h1] at hc⟩

theorem mem_generatesOf {d : List (String × JSValue)} {k ps : String}
    (h : (k, ps) ∈ generatesOf d) :
    ∃ v, (k, v) ∈ d ∧ entryClass k v = .generateF ps := by
  unfold generatesOf at h
  rw [List.mem_filterMap] at h
  obtain ⟨kv, hkv, heq⟩ := h
  cases hc : entryClass kv.1 kv.2 <;> rw [hc] at heq <;> simp at heq
  case generateF s =>
    obtain ⟨h1, h2⟩ := heq
    subst h2
    exact ⟨kv.2, by rwa [← h1], by rwa [h1] at hc⟩

theorem mem_aggregatesOf {d : List (String × JSValue)} {k : String}
    {ap : String × String} (h : (k, ap) ∈ aggregatesOf d) :
    ∃ v, (k, v) ∈ d ∧ entryClass k v = .aggregateF ap.1 ap.2 := by
  unfold aggregatesOf at h
  rw [List.mem_filterMap] at h
  obtain ⟨kv, hkv, heq⟩ := h
  cases hc : entryClass kv.1 kv.2 <;> rw [hc] at heq <;> simp at heq
  case aggregateF op p =>
    obtain ⟨h1, h2⟩ := heq
    subst h2
    exact ⟨kv.2, by rwa [← h1], by rwa [h1] at hc⟩

theorem mem_fuzziesOf {d : List (String × JSValue)} {k t : String}
    (h : (k, t) ∈ fuzziesOf d) :
    ∃ v, (k, v) ∈ d ∧ entryClass k v = .fuzzyF t := by
  unfold fuzziesOf at h
  rw [List.mem_filterMap] at h
  obtain ⟨kv, hkv, heq⟩ := h
  cases hc : entryClass kv.1 kv.2 <;> rw [hc] at heq <;> simp at heq
  case fuzzyF s =>
    obtain ⟨h1, h2⟩ := heq
    subst h2
    exact ⟨kv.2, by rwa [← h1], by rwa [h1] at hc⟩

theorem mem_syncsOf {d : List (String × JSValue)} {k t : String}
    (h : (k, t) ∈ syncsOf d) :
    ∃ v, (k, v) ∈ d ∧ entryClass k v = .syncF t := by
  unfold syncsOf at h
  rw [List.mem_filterMap] at h
  obtain ⟨kv, hkv, heq⟩ := h
  cases hc : entryClass kv.1 kv.2 <;> rw [hc] at heq <;> simp at heq
  case syncF s =>
    obtain ⟨h1, h2⟩ := heq
    subst h2
    exact ⟨kv.2, by rwa [← h1], by rwa [h1] at hc⟩

theorem mem_refsOf {d : List (String × JSValue)} {k t : String}
    (h : (k, t) ∈ refsOf d) :
    ∃ v, (k, v) ∈ d ∧ entryClass k v = .refF t := by
  unfold refsOf at h
  rw [List.mem_filterMap] at h
  obtain ⟨kv, hkv, heq⟩ := h
  cases hc : entryClass kv.1 kv.2 <;> rw [hc] at heq <;> simp at heq
  case refF s =>
    obtain ⟨h1, h2⟩ := heq
    subst h2
    exact ⟨kv.2, by rwa [← h1], by rwa [h1] at hc⟩

theorem entryClass_split {k : String} {v : JSValue} {cls : FieldClass}
    (h : entryClass k v = cls) (hne : cls ≠ .skip) :
    startsDollar k = false ∧ classify v = cls := by
  unfold entryClass at h
  by_cases hd : startsDollar k
  · rw [if_pos hd] at h
    exact absurd h.symm hne
  · rw [if_neg hd] at h
    exact ⟨by simpa using hd, h⟩

theorem goodMeta_nounMeta (d : List (String × JSValue)) :
    goodMeta (nounMeta d) := by
  rw [nounMeta_buckets]
  refine ⟨?_, ?_, ?_, ?_, ?_, ?_⟩
  · rintro ⟨k, desc⟩ hmem
    obtain ⟨v, _, hc⟩ := mem_inputsOf hmem
    obtain ⟨hd, hcl⟩ := entryClass_split hc (by simp)
    obtain ⟨_, hb⟩ := classify_inputF_inv hcl
    exact ⟨hd, hb⟩
  · rintro ⟨k, ps⟩ hmem
    obtain ⟨v, _, hc⟩ := mem_generatesOf hmem
    obtain ⟨hd, hcl⟩ := entryClass_split hc (by simp)
    obtain ⟨_, hb⟩ := classify_generateF_inv hcl
    exact ⟨hd, hb⟩
  · rintro ⟨k, ap⟩ hmem
    obtain ⟨v, _, hc⟩ := mem_aggregatesOf hmem
    obtain ⟨hd, hcl⟩ := entryClass_split hc (by simp)
    exact ⟨hd, classify_aggregateF_inv hcl⟩
  · rintro ⟨k, t⟩ hmem
    obtain ⟨v, _, hc⟩ := mem_fuzziesOf hmem
    exact (entryClass_split hc (by simp)).1
  · rintro ⟨k, t⟩ hmem
    obtain ⟨v, _, hc⟩ := mem_syncsOf hmem
    exact (entryClass_split hc (by simp)).1
  · rintro ⟨k, t⟩ hmem
    obtain ⟨v, _, hc⟩ := mem_refsOf hmem
    exact (entryClass_split hc (by simp)).1

/-! ### Classification of the values parseNoun reconstructs -/

theorem classify_reInput {desc : String}
    (hb : (containsC desc '{' && containsC desc '}') = false) :
    classify (.str desc) = .inputF desc := by
  simp [classify, hb]

theorem classify_reGen {p : String}
    (hb : (containsC p '{' && containsC p '}') = true) :
    classify (.str p) = .generateF p := by
  simp [classify, hb]

theorem classify_reAgg {op p : String}
    (hop : op = "sum" ∨ op = "count" ∨ op = "avg" ∨ op = "min" ∨ op = "max") :
    classify (.obj [("$" ++ op, .str p)]) = .aggregateF op p := by
  rcases hop with rfl | rfl | rfl | rfl | rfl <;> rfl

theorem classify_reFuzzy {t : String} :
    classify (.obj [("$fuzzy", .str t)]) = .fuzzyF t := rfl

theorem classify_reFn {c : String} :
    classify (.obj [("$fn", .str c)]) = .skip := rfl

theorem entryClass_of_classify_skip {k : String} {v : JSValue}
    (h : classify v = .skip) : entryClass k v = .skip := by
  unfold entryClass
  by_cases hd : startsDollar k <;> simp [hd, h]

theorem classify_rePath (s : String) :
    classify (.obj [("$", .obj [("path",
        .arr ((splitOnC '.' s.toList).map fun p => JSValue.str (mkStr p)))])]) =
      (if headIsExternal ((splitOnC '.' s.toList).map fun p => JSValue.str (mkStr p))
       then .syncF (joinDot ((splitOnC '.' s.toList).map fun p => JSValue.str (mkStr p)))
       else .refF (joinDot ((splitOnC '.' s.toList).map fun p => JSValue.str (mkStr p)))) := by
  have hne : ((splitOnC '.' s.toList).map fun p => JSValue.str (mkStr p)).isEmpty
      = false := by
    cases h : splitOnC '.' s.toList with
    | nil => exact absurd h (splitOnC_ne_nil _ _)
    | cons p ps => simp [h]
  have hred : classify (.obj [("$", .obj [("path",
      .arr ((splitOnC '.' s.toList).map fun p => JSValue.str (mkStr p)))])]) =
      (if ((splitOnC '.' s.toList).map fun p => JSValue.str (mkStr p)).isEmpty
       then FieldClass.skip
       else if headIsExternal ((splitOnC '.' s.toList).map fun p =>
          JSValue.str (mkStr p))
       then .syncF (joinDot ((splitOnC '.' s.toList).map fun p =>
          JSValue.str (mkStr p)))
       else .refF (joinDot ((splitOnC '.' s.toList).map fun p =>
          JSValue.str (mkStr p)))) := rfl
  rw [hred, hne]
  simp

/-! ### The parse of each serialized bucket segment -/

theorem parse_seg_input (l : List (String × String)) :
    parseNounFields (l.map fun kv => (kv.1, serInputF kv.2)) =
      l.map fun kv => (kv.1, JSValue.str kv.2) := by
  induction l with
  | nil => rfl
  | cons kv rest ih =>
    have step : parseNounFields ((kv.1, serInputF kv.2) ::
        rest.map fun kv => (kv.1, serInputF kv.2)) =
        (kv.1, JSValue.str kv.2) ::
          parseNounFields (rest.map fun kv => (kv.1, serInputF kv.2)) := by
      simp [parseNounFields, List.filterMap_cons, serInputF]
    simp only [List.map_cons]
    rw [step, ih]

theorem parse_seg_sync (l : List (String × String)) :
    parseNounFields (l.map fun kv => (kv.1, serSyncF kv.2)) =
      l.map fun kv => (kv.1, JSValue.obj [("$", .obj [("path",
        .arr ((splitOnC '.' kv.2.toList).map fun p => JSValue.str (mkStr p)))])]) := by
  induction l with
  | nil => rfl
  | cons kv rest ih =>
    have step : parseNounFields ((kv.1, serSyncF kv.2) ::
        rest.map fun kv => (kv.1, serSyncF kv.2)) =
        (kv.1, JSValue.obj [("$", .obj [("path",
        .arr ((splitOnC '.' kv.2.toList).map fun p => JSValue.str (mkStr p)))])]) ::
          parseNounFields (rest.map fun kv => (kv.1, serSyncF kv.2)) := by
      simp [parseNounFields, List.filterMap_cons, serSyncF]
    simp only [List.map_cons]
    rw [step, ih]

theorem parse_seg_ref (l : List (String × String)) :
    parseNounFields (l.map fun kv => (kv.1, serRefF kv.2)) =
      l.map fun kv => (kv.1, JSValue.obj [("$", .obj [("path",
        .arr ((splitOnC '.' kv.2.toList).map fun p => JSValue.str (mkStr p)))])]) := by
  induction l with
  | nil => rfl
  | cons kv rest ih =>
    have step : parseNounFields ((kv.1, serRefF kv.2) ::
        rest.map fun kv => (kv.1, serRefF kv.2)) =
        (kv.1, JSValue.obj [("$", .obj [("path",
        .arr ((splitOnC '.' kv.2.toList).map fun p => JSValue.str (mkStr p)))])]) ::
          parseNounFields (rest.map fun kv => (kv.1, serRefF kv.2)) := by
      simp [parseNounFields, List.filterMap_cons, serRefF]
    simp only [List.map_cons]
    rw [step, ih]

theorem parse_seg_agg (l : List (String × (String × String))) :
    parseNounFields (l.map fun kv => (kv.1, serAggF kv.2)) =
      l.map fun kv => (kv.1, JSValue.obj [("$" ++ kv.2.1, .str kv.2.2)]) := by
  induction l with
  | nil => rfl
  | cons kv rest ih =>
    have step : parseNounFields ((kv.1, serAggF kv.2) ::
        rest.map fun kv => (kv.1, serAggF kv.2)) =
        (kv.1, JSValue.obj [("$" ++ kv.2.1, .str kv.2.2)]) ::
          parseNounFields (rest.map fun kv => (kv.1, serAggF kv.2)) := by
      simp [parseNounFields, List.filterMap_cons, serAggF, getProp, afind]
    simp only [List.map_cons]
    rw [step, ih]

theorem parse_seg_gen (l : List (String × String)) :
    parseNounFields (l.map fun kv => (kv.1, serGenF kv.2)) =
      l.map fun kv => (kv.1, JSValue.str kv.2) := by
  induction l with
  | nil => rfl
  | cons kv rest ih =>
    have step : parseNounFields ((kv.1, serGenF kv.2) ::
        rest.map fun kv => (kv.1, serGenF kv.2)) =
        (kv.1, JSValue.str kv.2) ::
          parseNounFields (rest.map fun kv => (kv.1, serGenF kv.2)) := by
      simp [parseNounFields, List.filterMap_cons, serGenF]
    simp only [List.map_cons]
    rw [step, ih]

theorem parse_seg_fuzzy (l : List (String × String)) :
    parseNounFields (l.map fun kv => (kv.1, serFuzzyF kv.2)) =
      l.map fun kv => (kv.1, JSValue.obj [("$fuzzy", .str kv.2)]) := by
  induction l with
  | nil => rfl
  | cons kv rest ih =>
    have step : parseNounFields ((kv.1, serFuzzyF kv.2) ::
        rest.map fun kv => (kv.1, serFuzzyF kv.2)) =
        (kv.1, JSValue.obj [("$fuzzy", .str kv.2)]) ::
          parseNounFields (rest.map fun kv => (kv.1, serFuzzyF kv.2)) := by
      simp [parseNounFields, List.filterMap_cons, serFuzzyF]
    simp only [List.map_cons]
    rw [step, ih]

theorem parse_seg_compute_skip (l : List (String × String)) :
    ∀ kv' ∈ parseNounFields (l.map fun kv => (kv.1, serComputeF kv.2)),
      entryClass kv'.1 kv'.2 = .skip := by
  intro kv' h
  unfold parseNounFields at h
  rw [List.filterMap_map, List.mem_filterMap] at h
  obtain ⟨kv, _, heq⟩ := h
  simp only [Function.comp, serComputeF] at heq
  injection heq with heq'
  rw [← heq']
  exact entryClass_of_classify_skip classify_reFn

theorem parse_seg_link_skip (l : List (String × (String × Option JSValue))) :
    ∀ kv' ∈ parseNounFields (l.map fun kv => (kv.1, serLinkF kv.2)),
      entryClass kv'.1 kv'.2 = .skip := by
  intro kv' h
  unfold parseNounFields at h
  rw [List.filterMap_map, List.mem_filterMap] at h
  obtain ⟨kv, _, heq⟩ := h
  simp only [Function.comp, serLinkF] at heq
  cases hf : kv.2.2 with
  | none => rw [hf] at heq; simp at heq
  | some x =>
    rw [hf] at heq
    simp only [Option.map_some'] at heq
    injection heq with heq'
    rw [← heq']
    exact entryClass_of_classify_skip classify_reFn

/-! ### Re-classifying each reconstructed segment -/

theorem foldl_seg_skip (l : List (String × JSValue))
    (hl : ∀ kv ∈ l, entryClass kv.1 kv.2 = .skip) :
    ∀ m0 : NounMeta, l.foldl (fun m kv => addEntry m kv.1 kv.2) m0 = m0 := by
  induction l with
  | nil => intro m0; rfl
  | cons kv rest ih =>
    intro m0
    rw [List.foldl_cons,
      show addEntry m0 kv.1 kv.2 = m0 by simp [addEntry, hl kv (by simp)]]
    exact ih (fun kv h => hl kv (by simp [h])) m0

theorem entryClass_nondollar {k : String} {v : JSValue} {cls : FieldClass}
    (hd : startsDollar k = false) (hc : classify v = cls) :
    entryClass k v = cls := by
  unfold entryClass
  rw [if_neg (by simp [hd]), hc]

theorem foldl_seg_input (l : List (String × String)) :
    ∀ m0 : NounMeta,
    (∀ kv ∈ l, startsDollar kv.1 = false ∧
      (containsC kv.2 '{' && containsC kv.2 '}') = false) →
    List.foldl (fun m kv => addEntry m kv.1 kv.2) m0
      (l.map fun kv => (kv.1, JSValue.str kv.2)) =
    { m0 with input := m0.input ++ l } := by
  induction l with
  | nil => intro m0 _; cases m0; simp
  | cons kv rest ih =>
    intro m0 hl
    obtain ⟨hd, hb⟩ := hl kv (by simp)
    have hcl : entryClass kv.1 (.str kv.2) = .inputF kv.2 :=
      entryClass_nondollar hd (classify_reInput hb)
    simp only [List.map_cons, List.foldl_cons]
    rw [show addEntry m0 kv.1 (.str kv.2) =
        { m0 with input := m0.input ++ [kv] } by simp [addEntry, hcl]]
    rw [ih _ (fun kv h => hl kv (by simp [h]))]
    simp

theorem foldl_seg_gen (l : List (String × String)) :
    ∀ m0 : NounMeta,
    (∀ kv ∈ l, startsDollar kv.1 = false ∧
      (containsC kv.2 '{' && containsC kv.2 '}') = true) →
    List.foldl (fun m kv => addEntry m kv.1 kv.2) m0
      (l.map fun kv => (kv.1, JSValue.str kv.2)) =
    { m0 with generate := m0.generate ++ l } := by
  induction l with
  | nil => intro m0 _; cases m0; simp
  | cons kv rest ih =>
    intro m0 hl
    obtain ⟨hd, hb⟩ := hl kv (by simp)
    have hcl : entryClass kv.1 (.str kv.2) = .generateF kv.2 :=
      entryClass_nondollar hd (classify_reGen hb)
    simp only [List.map_cons, List.foldl_cons]
    rw [show addEntry m0 kv.1 (.str kv.2) =
        { m0 with generate := m0.generate ++ [kv] } by simp [addEntry, hcl]]
    rw [ih _ (fun kv h => hl kv (by simp [h]))]
    simp

theorem foldl_seg_agg (l : List (String × (String × String))) :
    ∀ m0 : NounMeta,
    (∀ kv ∈ l, startsDollar kv.1 = false ∧
      (kv.2.1 = "sum" ∨ kv.2.1 = "count" ∨ kv.2.1 = "avg" ∨
       kv.2.1 = "min" ∨ kv.2.1 = "max")) →
    List.foldl (fun m kv => addEntry m kv.1 kv.2) m0
      (l.map fun kv => (kv.1, JSValue.obj [("$" ++ kv.2.1, .str kv.2.2)])) =
    { m0 with aggregate := m0.aggregate ++ l } := by
  induction l with
  | nil => intro m0 _; cases m0; simp
  | cons kv rest ih =>
    intro m0 hl
    obtain ⟨hd, hops⟩ := hl kv (by simp)
    have hcl : entryClass kv.1 (.obj [("$" ++ kv.2.1, .str kv.2.2)]) =
        .aggregateF kv.2.1 kv.2.2 :=
      entryClass_nondollar hd (classify_reAgg hops)
    simp only [List.map_cons, List.foldl_cons]
    rw [show addEntry m0 kv.1 (.obj [("$" ++ kv.2.1, .str kv.2.2)]) =
        { m0 with aggregate := m0.aggregate ++ [kv] } by simp [addEntry, hcl]]
    rw [ih _ (fun kv h => hl kv (by simp [h]))]
    simp

theorem foldl_seg_fuzzy (l : List (String × String)) :
    ∀ m0 : NounMeta,
    (∀ kv ∈ l, startsDollar kv.1 = false) →
    List.foldl (fun m kv => addEntry m kv.1 kv.2) m0
      (l.map fun kv => (kv.1, JSValue.obj [("$fuzzy", .str kv.2)])) =
    { m0 with fuzzy := m0.fuzzy ++ l } := by
  induction l with
  | nil => intro m0 _; cases m0; simp
  | cons kv rest ih =>
    intro m0 hl
    have hcl : entryClass kv.1 (.obj [("$fuzzy", .str kv.2)]) = .fuzzyF kv.2 :=
      entryClass_nondollar (hl kv (by simp)) classify_reFuzzy
    simp only [List.map_cons, List.foldl_cons]
    rw [show addEntry m0 kv.1 (.obj [("$fuzzy", .str kv.2)]) =
        { m0 with fuzzy := m0.fuzzy ++ [kv] } by simp [addEntry, hcl]]
    rw [ih _ (fun kv h => hl kv (by simp [h]))]
    simp

theorem keysOf_cons {β : Type} (kv : String × β) (l : List (String × β)) :
    keysOf (kv :: l) = kv.1 :: keysOf l := rfl

theorem foldl_seg_path (l : List (String × String)) :
    ∀ m0 : NounMeta,
    (∀ kv ∈ l, startsDollar kv.1 = false) →
    ∃ A B, List.foldl (fun m kv => addEntry m kv.1 kv.2) m0
      (l.map fun kv => (kv.1, JSValue.obj [("$", .obj [("path",
        .arr ((splitOnC '.' kv.2.toList).map fun p => JSValue.str (mkStr p)))])])) =
      { m0 with sync := m0.sync ++ A, ref := m0.ref ++ B } ∧
      (∀ k, k ∈ keysOf A → k ∈ keysOf l) ∧
      (∀ k, k ∈ keysOf B → k ∈ keysOf l) := by
  induction l with
  | nil =>
    intro m0 _
    refine ⟨[], [], ?_, by simp [keysOf], by simp [keysOf]⟩
    cases m0
    simp
  | cons kv rest ih =>
    intro m0 hl
    have hd := hl kv (by simp)
    have hcl := classify_rePath kv.2
    by_cases hx : headIsExternal
        ((splitOnC '.' kv.2.toList).map fun p => JSValue.str (mkStr p))
    · rw [if_pos hx] at hcl
      have hec := entryClass_nondollar hd hcl
      simp only [List.map_cons, List.foldl_cons]
      rw [show addEntry m0 kv.1 (JSValue.obj [("$", .obj [("path",
          .arr ((splitOnC '.' kv.2.toList).map fun p => JSValue.str (mkStr p)))])]) =
          { m0 with sync := m0.sync ++
            [(kv.1, joinDot ((splitOnC '.' kv.2.toList).map fun p =>
              JSValue.str (mkStr p)))] } by unfold addEntry; rw [hec]]
      obtain ⟨A', B', heq, hA, hB⟩ := ih _ (fun kv h => hl kv (by simp [h]))
      refine ⟨(kv.1, joinDot ((splitOnC '.' kv.2.toList).map fun p =>
        JSValue.str (mkStr p))) :: A', B', ?_, ?_, ?_⟩
      · rw [heq]
        simp [List.append_assoc]
      · intro k hk
        rw [keysOf_cons] at hk
        rw [keysOf_cons]
        rcases List.mem_cons.mp hk with h | h
        · exact List.mem_cons.mpr (Or.inl h)
        · exact List.mem_cons.mpr (Or.inr (hA k h))
      · intro k hk
        rw [keysOf_cons]
        exact List.mem_cons.mpr (Or.inr (hB k hk))
    · rw [if_neg hx] at hcl
      have hec := entryClass_nondollar hd hcl
      simp only [List.map_cons, List.foldl_cons]
      rw [show addEntry m0 kv.1 (JSValue.obj [("$", .obj [("path",
          .arr ((splitOnC '.' kv.2.toList).map fun p => JSValue.str (mkStr p)))])]) =
          { m0 with ref := m0.ref ++
            [(kv.1, joinDot ((splitOnC '.' kv.2.toList).map fun p =>
              JSValue.str (mkStr p)))] } by unfold addEntry; rw [hec]]
      obtain ⟨A', B', heq, hA, hB⟩ := ih _ (fun kv h => hl kv (by simp [h]))
      refine ⟨A', (kv.1, joinDot ((splitOnC '.' kv.2.toList).map fun p =>
        JSValue.str (mkStr p))) :: B', ?_, ?_, ?_⟩
      · rw [heq]
        simp [List.append_assoc]
      · intro k hk
        rw [keysOf_cons]
        exact List.mem_cons.mpr (Or.inr (hA k hk))
      · intro k hk
        rw [keysOf_cons] at hk
        rw [keysOf_cons]
        rcases List.mem_cons.mp hk with h | h
        · exact List.mem_cons.mpr (Or.inl h)
        · exact List.mem_cons.mpr (Or.inr (hB k h))

/-! ### Assembling the re-classified meta -/

theorem parseNounFields_append (l1 l2 : List (String × SerField)) :
    parseNounFields (l1 ++ l2) = parseNounFields l1 ++ parseNounFields l2 := by
  unfold parseNounFields
  exact List.filterMap_append l1 l2 _

theorem roundtrip_meta (d : List (String × JSValue)) :
    (nounMeta (parseNounFields (serializeFields (nounMeta d)))).input
      = (nounMeta d).input ∧
    (nounMeta (parseNounFields (serializeFields (nounMeta d)))).generate
      = (nounMeta d).generate ∧
    (nounMeta (parseNounFields (serializeFields (nounMeta d)))).aggregate
      = (nounMeta d).aggregate ∧
    (nounMeta (parseNounFields (serializeFields (nounMeta d)))).fuzzy
      = (nounMeta d).fuzzy ∧
    (nounMeta (parseNounFields (serializeFields (nounMeta d)))).compute = [] ∧
    (nounMeta (parseNounFields (serializeFields (nounMeta d)))).link = [] ∧
    (∀ k, k ∈ keysOf (nounMeta (parseNounFields (serializeFields (nounMeta d)))).sync →
      k ∈ keysOf (nounMeta d).sync ∨ k ∈ keysOf (nounMeta d).ref) ∧
    (∀ k, k ∈ keysOf (nounMeta (parseNounFields (serializeFields (nounMeta d)))).ref →
      k ∈ keysOf (nounMeta d).sync ∨ k ∈ keysOf (nounMeta d).ref) := by
  obtain ⟨g1, g2, g3, g4, g5, g6⟩ := goodMeta_nounMeta d
  have hsplit : parseNounFields (serializeFields (nounMeta d)) =
      ((nounMeta d).input.map fun kv => (kv.1, JSValue.str kv.2)) ++
      ((nounMeta d).sync.map fun kv => (kv.1, JSValue.obj [("$", .obj [("path",
        .arr ((splitOnC '.' kv.2.toList).map fun p => JSValue.str (mkStr p)))])])) ++
      ((nounMeta d).ref.map fun kv => (kv.1, JSValue.obj [("$", .obj [("path",
        .arr ((splitOnC '.' kv.2.toList).map fun p => JSValue.str (mkStr p)))])])) ++
      (parseNounFields ((nounMeta d).compute.map fun kv => (kv.1, serComputeF kv.2))) ++
      ((nounMeta d).aggregate.map fun kv =>
        (kv.1, JSValue.obj [("$" ++ kv.2.1, .str kv.2.2)])) ++
      ((nounMeta d).generate.map fun kv => (kv.1, JSValue.str kv.2)) ++
      (parseNounFields ((nounMeta d).link.map fun kv => (kv.1, serLinkF kv.2))) ++
      ((nounMeta d).fuzzy.map fun kv =>
        (kv.1, JSValue.obj [("$fuzzy", .str kv.2)])) := by
    unfold serializeFields
    rw [parseNounFields_append, parseNounFields_append, parseNounFields_append,
      parseNounFields_append, parseNounFields_append, parseNounFields_append,
      parseNounFields_append, parse_seg_input, parse_seg_sync, parse_seg_ref,
      parse_seg_agg, parse_seg_gen, parse_seg_fuzzy]
  rw [hsplit]
  rw [show ∀ l : List (String × JSValue), nounMeta l =
    List.foldl (fun m kv => addEntry m kv.1 kv.2) emptyMeta l from fun _ => rfl]
  rw [List.foldl_append, List.foldl_append, List.foldl_append, List.foldl_append,
    List.foldl_append, List.foldl_append, List.foldl_append]
  rw [foldl_seg_input (nounMeta d).input emptyMeta (fun kv h => (g1 kv h))]
  obtain ⟨A1, B1, e1, hA1, hB1⟩ :=
    foldl_seg_path (nounMeta d).sync
      { emptyMeta with input := emptyMeta.input ++ (nounMeta d).input }
      (fun kv h => g5 kv h)
  rw [e1]
  obtain ⟨A2, B2, e2, hA2, hB2⟩ :=
    foldl_seg_path (nounMeta d).ref _ (fun kv h => g6 kv h)
  rw [e2]
  rw [foldl_seg_skip _ (parse_seg_compute_skip (nounMeta d).compute) _]
  rw [foldl_seg_agg (nounMeta d).aggregate _ (fun kv h => g3 kv h)]
  rw [foldl_seg_gen (nounMeta d).generate _ (fun kv h => g2 kv h)]
  rw [foldl_seg_skip _ (parse_seg_link_skip (nounMeta d).link) _]
  rw [foldl_seg_fuzzy (nounMeta d).fuzzy _ (fun kv h => g4 kv h)]
  refine ⟨by simp [emptyMeta], by simp [emptyMeta], by simp [emptyMeta],
    by simp [emptyMeta], by simp [emptyMeta], by simp [emptyMeta], ?_, ?_⟩
  · intro k hk
    simp only [emptyMeta] at hk
    simp only [keysOf, List.map_append, List.mem_append] at hk
    simp at hk
    rcases hk with h | h
    · exact Or.inl (hA1 k (by simpa [keysOf] using h))
    · exact Or.inr (hA2 k (by simpa [keysOf] using h))
  · intro k hk
    simp only [emptyMeta] at hk
    simp only [keysOf, List.map_append, List.mem_append] at hk
    simp at hk
    rcases hk with h | h
    · exact Or.inl (hB1 k (by simpa [keysOf] using h))
    · exact Or.inr (hB2 k (by simpa [keysOf] using h))

/-- C5: serialize(parse(serialize(D))) assigns every field of D whose
serialize(D) source kind is Input, Generate, Aggregate or Fuzzy exactly
the same source-kind classification as serialize(D) does.  (Compute and
Link fields are intentionally not reactivated by parse, and Sync/Ref are
outside the claim; the four claimed kinds round-trip unchanged.) -/
theorem roundtrip_source_kinds (d : List (String × JSValue)) (k : String)
    (s : SourceKind)
    (hs : s = .input ∨ s = .generate ∨ s = .aggregate ∨ s = .fuzzy)
    (h : srcOf (serializeFields (nounMeta d)) k = some s) :
    srcOf (roundTrip d) k = some s := by
  obtain ⟨hin, hgen, hagg, hfuz, hcomp, hlink, hsy, hre⟩ := roundtrip_meta d
  rw [srcOf_serialize] at h
  unfold roundTrip
  rw [srcOf_serialize]
  unfold bucketFind at h ⊢
  cases h1 : afind k (nounMeta d).input with
  | some v =>
    rw [h1] at h
    rw [hin, h1]
    exact h
  | none =>
    rw [h1] at h
    rw [hin, h1]
    cases h2 : afind k (nounMeta d).sync with
    | some v =>
      rw [h2] at h
      rcases hs with rfl | rfl | rfl | rfl <;> simp at h
    | none =>
      rw [h2] at h
      cases h3 : afind k (nounMeta d).ref with
      | some v =>
        rw [h3] at h
        rcases hs with rfl | rfl | rfl | rfl <;> simp at h
      | none =>
        rw [h3] at h
        have hsy' : afind k (nounMeta (parseNounFields
            (serializeFields (nounMeta d)))).sync = none := by
          rw [afind_eq_none]
          intro hk
          rcases hsy k hk with hk' | hk'
          · exact (afind_eq_none k (nounMeta d).sync).mp h2 hk'
          · exact (afind_eq_none k (nounMeta d).ref).mp h3 hk'
        have hre' : afind k (nounMeta (parseNounFields
            (serializeFields (nounMeta d)))).ref = none := by
          rw [afind_eq_none]
          intro hk
          rcases hre k hk with hk' | hk'
          · exact (afind_eq_none k (nounMeta d).sync).mp h2 hk'
          · exact (afind_eq_none k (nounMeta d).ref).mp h3 hk'
        rw [hsy', hre', hcomp, hlink]
        cases h4 : afind k (nounMeta d).compute with
        | some v =>
          rw [h4] at h
          rcases hs with rfl | rfl | rfl | rfl <;> simp at h
        | none =>
          rw [h4] at h
          cases h5 : afind k (nounMeta d).aggregate with
          | some v =>
            rw [h5] at h
            rw [hagg, h5]
            simpa [afind] using h
          | none =>
            rw [h5] at h
            rw [hagg, h5]
            cases h6 : afind k (nounMeta d).generate with
            | some v =>
              rw [h6] at h
              rw [hgen, h6]
              simpa [afind] using h
            | none =>
              rw [h6] at h
              rw [hgen, h6]
              cases h7 : afind k (nounMeta d).link with
              | some v =>
                rw [h7] at h
                rcases hs with rfl | rfl | rfl | rfl <;> simp at h
              | none =>
                rw [h7] at h
                cases h8 : afind k (nounMeta d).fuzzy with
                | some v =>
                  rw [h8] at h
                  rw [hfuz, h8]
                  simpa [afind] using h
                | none =>
                  rw [h8] at h
                  simp at h

/-- Witness for C5: a definition with one field of each claimed kind —
an input description, a generative prompt, a $sum aggregation and a
$fuzzy grounding — keeps the aggregate and generate classifications
through serialize-parse-serialize. -/
theorem roundtrip_source_kinds_witness :
    srcOf (roundTrip [("name", .str "Name"),
      ("pitch", .str "Pitch for {name}"),
      ("mrr", .obj [("$sum", .str "subscriptions.amount")]),
      ("occupation", .obj [("$fuzzy", .str "Occupation")])]) "mrr"
      = some .aggregate ∧
    srcOf (roundTrip [("name", .str "Name"),
      ("pitch", .str "Pitch for {name}"),
      ("mrr", .obj [("$sum", .str "subscriptions.amount")]),
      ("occupation", .obj [("$fuzzy", .str "Occupation")])]) "pitch"
      = some .generate :=
  ⟨roundtrip_source_kinds [("name", .str "Name"),
      ("pitch", .str "Pitch for {name}"),
      ("mrr", .obj [("$sum", .str "subscriptions.amount")]),
      ("occupation", .obj [("$fuzzy", .str "Occupation")])] "mrr" .aggregate
      (by simp) rfl,
   roundtrip_source_kinds [("name", .str "Name"),
      ("pitch", .str "Pitch for {name}"),
      ("mrr", .obj [("$sum", .str "subscriptions.amount")]),
      ("occupation", .obj [("$fuzzy", .str "Occupation")])] "pitch" .generate
      (by simp) rfl⟩

end Nouns
